import Mathlib

/-!
Verification of the GMA binary codec (`gma-lite-rs`): a shallow embedding of
`src/lib.rs`, `src/reader.rs` and `src/builder.rs`.

Modelling conventions:
* A byte stream is a `List UInt8`; sequential readers are functions
  `List UInt8 → Except GmaError (α × List UInt8)` returning the value and the
  remaining stream (mirroring the forward-only `Read` consumption).
* Rust `String` values are modelled by their UTF-8 byte sequences
  (`List UInt8`); `String::from_utf8_lossy` is modelled by `utf8Lossy`, which
  maps a byte list to the UTF-8 bytes of the lossily decoded text.
* Machine integers are `Nat` / `Int` with explicit `% 2 ^ w` reductions at the
  serialization boundary (`leBytes`, `i64le`, ...).
* The encoder's `BufWriter` (default 8192-byte capacity) is modelled
  explicitly by `BW`/`bwWrite`, since its flushing behaviour is observable on
  the sink when an encode fails halfway.
-/

namespace Gma

/-- Decidable equality on `Except`, so that concrete runs of the codec can be
checked by `decide`. -/
instance {ε α : Type} [DecidableEq ε] [DecidableEq α] :
    DecidableEq (Except ε α) := fun x y =>
  match x, y with
  | .ok a, .ok b =>
    if h : a = b then .isTrue (by rw [h]) else .isFalse (by simp [h])
  | .error e, .error f =>
    if h : e = f then .isTrue (by rw [h]) else .isFalse (by simp [h])
  | .ok _, .error _ => .isFalse (by simp)
  | .error _, .ok _ => .isFalse (by simp)

/-- Little-endian serialization of `n` into `w` bytes (truncating mod `256 ^ w`),
as done by Rust's `to_le_bytes`. -/
def leBytes : Nat → Nat → List UInt8
  | 0, _ => []
  | w + 1, n => UInt8.ofNat (n % 256) :: leBytes w (n / 256)

/-- Little-endian value of a byte list, as read by `from_le_bytes`. -/
def leVal : List UInt8 → Nat
  | [] => 0
  | b :: t => b.toNat + 256 * leVal t

/-- `u32::to_le_bytes` on a (truncated) natural number. -/
def u32le (n : Nat) : List UInt8 := leBytes 4 n

/-- `u64::to_le_bytes` on a (truncated) natural number. -/
def u64le (n : Nat) : List UInt8 := leBytes 8 n

/-- `i64::to_le_bytes`: two's-complement little-endian encoding of an integer. -/
def i64le (v : Int) : List UInt8 := leBytes 8 (v % 2 ^ 64).toNat

/-- `i32::to_le_bytes`: two's-complement little-endian encoding of an integer. -/
def i32le (v : Int) : List UInt8 := leBytes 4 (v % 2 ^ 32).toNat

/-- Reinterpret one byte as a signed 8-bit integer (`i8::from_le_bytes`). -/
def i8OfByte (b : UInt8) : Int :=
  if b.toNat < 128 then (b.toNat : Int) else (b.toNat : Int) - 256

/-- Is `b` a UTF-8 continuation byte (`0x80 ..= 0xBF`)? -/
def utf8Cont (b : UInt8) : Bool := 128 ≤ b.toNat && b.toNat ≤ 191

/-- Allowed second byte of a three-byte UTF-8 sequence headed by `b0`
(`0xE0` → `A0..BF`, `0xED` → `80..9F`, otherwise a continuation byte). -/
def utf8Snd3 (b0 b1 : UInt8) : Bool :=
  if b0.toNat = 224 then 160 ≤ b1.toNat && b1.toNat ≤ 191
  else if b0.toNat = 237 then 128 ≤ b1.toNat && b1.toNat ≤ 159
  else utf8Cont b1

/-- Allowed second byte of a four-byte UTF-8 sequence headed by `b0`
(`0xF0` → `90..BF`, `0xF4` → `80..8F`, otherwise a continuation byte). -/
def utf8Snd4 (b0 b1 : UInt8) : Bool :=
  if b0.toNat = 240 then 144 ≤ b1.toNat && b1.toNat ≤ 191
  else if b0.toNat = 244 then 128 ≤ b1.toNat && b1.toNat ≤ 143
  else utf8Cont b1

/-- UTF-8 bytes of U+FFFD REPLACEMENT CHARACTER. -/
def fffd : List UInt8 := [239, 191, 189]

/-- Byte-level model of `String::from_utf8_lossy`: valid UTF-8 sequences are
copied verbatim; each maximal invalid subpart (per Rust's `Utf8Error`
`error_len` rules) is replaced by U+FFFD; an incomplete sequence at the end of
the input also becomes a single U+FFFD. -/
def utf8Lossy : List UInt8 → List UInt8
  | [] => []
  | b0 :: t =>
    if b0.toNat ≤ 127 then b0 :: utf8Lossy t
    else if 194 ≤ b0.toNat && b0.toNat ≤ 223 then
      match t with
      | [] => fffd
      | b1 :: t1 =>
        if utf8Cont b1 then b0 :: b1 :: utf8Lossy t1
        else fffd ++ utf8Lossy (b1 :: t1)
    else if 224 ≤ b0.toNat && b0.toNat ≤ 239 then
      match t with
      | [] => fffd
      | b1 :: t1 =>
        if utf8Snd3 b0 b1 then
          match t1 with
          | [] => fffd
          | b2 :: t2 =>
            if utf8Cont b2 then b0 :: b1 :: b2 :: utf8Lossy t2
            else fffd ++ utf8Lossy (b2 :: t2)
        else fffd ++ utf8Lossy (b1 :: t1)
    else if 240 ≤ b0.toNat && b0.toNat ≤ 244 then
      match t with
      | [] => fffd
      | b1 :: t1 =>
        if utf8Snd4 b0 b1 then
          match t1 with
          | [] => fffd
          | b2 :: t2 =>
            if utf8Cont b2 then
              match t2 with
              | [] => fffd
              | b3 :: t3 =>
                if utf8Cont b3 then b0 :: b1 :: b2 :: b3 :: utf8Lossy t3
                else fffd ++ utf8Lossy (b3 :: t3)
            else fffd ++ utf8Lossy (b2 :: t2)
        else fffd ++ utf8Lossy (b1 :: t1)
    else fffd ++ utf8Lossy t

/-- Magic header for GMA files: the ASCII bytes of `"GMAD"` (`src/lib.rs`). -/
def HEADER : List UInt8 := [71, 77, 65, 68]

/-- File format version (`src/lib.rs`: `VERSION: i8 = 3`). -/
def VERSION : Int := 3

/-- The `io::ErrorKind`s this codec can produce. -/
inductive IoKind where
  | unexpectedEof
  | invalidInput
  deriving DecidableEq, Repr

/-- Errors that can occur while reading or writing a GMA (`GmaError` in
`src/lib.rs`; `Io` carries the `io::ErrorKind`). -/
inductive GmaError where
  | Io (k : IoKind)
  | InvalidHeader (got : List UInt8)
  | InvalidVersion (v : Int)
  | MissingNullTerminator
  | SizeOutOfRange (sz : Int)
  | TrailingMarkerMismatch (v : Nat)
  deriving DecidableEq, Repr

/-- One entry (file) contained in a GMA (`Entry` in `src/lib.rs`; `reader.rs`
refers to the same `{name, content, size}` record as `GMAFile`). The `name`
field holds the UTF-8 bytes of the Rust `String`. -/
structure Entry where
  name : List UInt8
  content : List UInt8
  size : Nat
  deriving DecidableEq, Repr

/-- A sequential reader: consumes a prefix of the stream, returning the parsed
value and the remaining stream, or a `GmaError`. -/
def Phase (α : Type) : Type := List UInt8 → Except GmaError (α × List UInt8)

/-- Sequencing of two reads; the model of one `?`-propagated read after
another in `reader.rs`. -/
def pbind {α β : Type} (f : Phase α) (g : α → Phase β) : Phase β := fun s =>
  match f s with
  | .error e => .error e
  | .ok (a, s1) => g a s1

/-- A read that consumes nothing and returns `a`. -/
def pok {α : Type} (a : α) : Phase α := fun s => .ok (a, s)

/-- A read that aborts with error `e`. -/
def perr {α : Type} (e : GmaError) : Phase α := fun _ => .error e

/-- `read_exact` into an `n`-byte buffer: consumes exactly `n` bytes, or fails
with `ErrorKind::UnexpectedEof` when fewer are available. -/
def readExact (n : Nat) : Phase (List UInt8) := fun s =>
  if n ≤ s.length then .ok (s.take n, s.drop n) else .error (.Io .unexpectedEof)

/-- `discard_exact` (`reader.rs`): copy `n` bytes to a sink; if fewer were
available, fail with `ErrorKind::UnexpectedEof`. -/
def discardExact (n : Nat) : Phase Unit := fun s =>
  match readExact n s with
  | .error e => .error e
  | .ok (_, s1) => .ok ((), s1)

/-- `read_i8` (`reader.rs`): one byte, reinterpreted as a signed 8-bit value. -/
def readI8 : Phase Int := fun s =>
  match readExact 1 s with
  | .error e => .error e
  | .ok (b, s1) => .ok (i8OfByte (b.headI), s1)

/-- `read_i64` (`reader.rs`): 8 bytes, little-endian two's-complement. -/
def readI64 : Phase Int := fun s =>
  match readExact 8 s with
  | .error e => .error e
  | .ok (b, s1) =>
    .ok (if leVal b < 2 ^ 63 then (leVal b : Int) else (leVal b : Int) - 2 ^ 64, s1)

/-- `read_u32` (`reader.rs`): 4 bytes, little-endian unsigned. -/
def readU32 : Phase Nat := fun s =>
  match readExact 4 s with
  | .error e => .error e
  | .ok (b, s1) => .ok (leVal b, s1)

/-- Scan for the first `0x00` byte: `some (pre, post)` splits the stream at
the first null (`pre` null-free, null excluded from both parts); `none` when
the stream holds no null byte.  This is `BufRead::read_until(0, ..)` together
with the terminator checks in `read_c_string`. -/
def splitAtNull : List UInt8 → Option (List UInt8 × List UInt8)
  | [] => none
  | b :: t =>
    if b = 0 then some ([], t)
    else (splitAtNull t).map fun p => (b :: p.1, p.2)

/-- `read_c_string` (`reader.rs`): scan byte-by-byte to the first `0x00`
(exclusive), lossily UTF-8-decode the bytes before it; end-of-stream before a
null (including an empty stream) is `MissingNullTerminator`. -/
def readCString : Phase (List UInt8) := fun s =>
  match splitAtNull s with
  | some (pre, post) => .ok (utf8Lossy pre, post)
  | none => .error .MissingNullTerminator

/-- Fuel-indexed model of the metadata loop in `read` (`reader.rs` lines
39–58): read a `u32` index (0 terminates), then name, `i64` size (negative →
`SizeOutOfRange`), and a discarded `u32` CRC, accumulating `(name, size)`
pairs.  Each iteration consumes at least 13 bytes, so any `fuel` larger than
the stream length makes the `fuel = 0` case unreachable
(`readEntriesMeta_eq` below eliminates the fuel). -/
def readEntriesMetaF : Nat → Phase (List (List UInt8 × Nat))
  | 0 => perr (.Io .unexpectedEof)
  | fuel + 1 =>
    pbind readU32 fun idx =>
      if idx = 0 then pok []
      else
        pbind readCString fun nm =>
          pbind readI64 fun sz =>
            if sz < 0 then perr (.SizeOutOfRange sz)
            else
              pbind (discardExact 4) fun _ =>
                pbind (readEntriesMetaF fuel) fun m => pok ((nm, sz.toNat) :: m)

/-- The metadata loop of `read`, with the fuel chosen large enough to be
irrelevant. -/
def readEntriesMeta : Phase (List (List UInt8 × Nat)) := fun s =>
  readEntriesMetaF (s.length + 1) s

/-- The content phase of `read` (`reader.rs` lines 60–70): for each pending
`(name, size)` in order, read exactly `size` bytes as that entry's content. -/
def readContents : List (List UInt8 × Nat) → Phase (List Entry)
  | [] => pok []
  | (nm, sz) :: rest =>
    pbind (readExact sz) fun content =>
      pbind (readContents rest) fun es => pok (⟨nm, content, sz⟩ :: es)

/-- The content phase followed by the trailing-marker check (`reader.rs`
lines 60–76), as one phase. -/
def readBodyP (meta : List (List UInt8 × Nat)) : Phase (List Entry) :=
  pbind (readContents meta) fun entries =>
    pbind readU32 fun trailing =>
      if trailing = 0 then pok entries
      else perr (.TrailingMarkerMismatch trailing)

/-- Everything `read` does after the addon-version field: the metadata loop,
the contents, and the trailing marker. -/
def readTailP : Phase (List Entry) :=
  pbind readEntriesMeta readBodyP

/-- `read` (`reader.rs`), with the remaining stream exposed: header magic,
version byte, discarded SteamID64 / timestamp / required-content flag, three
discarded addon strings, discarded addon version, metadata loop, contents,
and the trailing zero `u32` marker. -/
def readP : Phase (List Entry) :=
  pbind (readExact 4) fun hdr =>
    if hdr = HEADER then
      pbind readI8 fun v =>
        if v = VERSION then
          pbind (discardExact 8) fun _ =>        -- SteamID64, discarded
            pbind (discardExact 8) fun _ =>      -- timestamp, discarded
              pbind (discardExact 1) fun _ =>    -- required-content flag, discarded
                pbind readCString fun _ =>       -- addon name, discarded
                  pbind readCString fun _ =>     -- addon description, discarded
                    pbind readCString fun _ =>   -- addon author, discarded
                      pbind (discardExact 4) fun _ =>  -- addon version, discarded
                        readTailP
        else perr (.InvalidVersion v)
    else perr (.InvalidHeader hdr)

/-- `read` (`reader.rs`): the list of entries decoded from a byte stream. -/
def read (s : List UInt8) : Except GmaError (List Entry) :=
  match readP s with
  | .ok (es, _) => .ok es
  | .error e => .error e

/-! ## The encoder (`src/builder.rs`) -/

/-- Builder for writing `.gma` archives (`builder.rs`).  String fields hold
the UTF-8 bytes of the corresponding Rust `String`s. -/
structure Builder where
  name : List UInt8
  steam_id64 : Int
  author : List UInt8
  description : List UInt8
  entries : List Entry
  deriving DecidableEq, Repr

/-- `Builder::new`: author defaults to `"unknown"`, description to `""`. -/
def Builder.new (name : List UInt8) (steam_id64 : Int) : Builder :=
  { name := name
    steam_id64 := steam_id64
    author := [117, 110, 107, 110, 111, 119, 110]
    description := []
    entries := [] }

/-- `Builder::set_description`. -/
def Builder.set_description (b : Builder) (desc : List UInt8) : Builder :=
  { b with description := desc }

/-- `Builder::set_author`. -/
def Builder.set_author (b : Builder) (author : List UInt8) : Builder :=
  { b with author := author }

/-- `Builder::file_from_bytes`: append an entry whose stored `size` is the
length of the supplied bytes. -/
def Builder.file_from_bytes (b : Builder) (name : List UInt8)
    (bytes : List UInt8) : Builder :=
  { b with entries := b.entries ++ [⟨name, bytes, bytes.length⟩] }

/-- Default capacity of Rust's `std::io::BufWriter`. -/
def bwCap : Nat := 8192

/-- The state of `BufWriter::new(&mut w)`: the bytes already delivered to the
underlying sink `w`, and the bytes still held in the internal buffer. -/
structure BW where
  sink : List UInt8
  buf : List UInt8
  deriving DecidableEq, Repr

/-- `BufWriter::flush_buf`: move the buffered bytes to the sink. -/
def bwFlush (w : BW) : BW := ⟨w.sink ++ w.buf, []⟩

/-- `BufWriter::write` (hence `write_all`, as the sink accepts everything):
flush first when the buffer cannot absorb `d`; then write `d` directly to the
sink when `d` alone reaches the capacity, otherwise buffer it. -/
def bwWrite (w : BW) (d : List UInt8) : BW :=
  let w1 := if bwCap < w.buf.length + d.length then bwFlush w else w
  if bwCap ≤ d.length then ⟨w1.sink ++ d, w1.buf⟩ else ⟨w1.sink, w1.buf ++ d⟩

/-- `write_cstring` (`builder.rs`): reject a string holding a null byte with
`ErrorKind::InvalidInput` before writing anything of it; otherwise write the
bytes then the terminator.  An error carries the writer state at the failure. -/
def bwWCString (w : BW) (s : List UInt8) : Except (GmaError × BW) BW :=
  if 0 ∈ s then .error (.Io .invalidInput, w)
  else .ok (bwWrite (bwWrite w s) [0])

/-- The metadata loop of `Builder::write_to` (`builder.rs` lines 82–92):
per entry, the 1-based index as `u32`, the name as a C string, the content
length as `i64`, and a zero `u32` CRC. -/
def writeMetaBW (i : Nat) : List Entry → BW → Except (GmaError × BW) BW
  | [], w => .ok w
  | e :: es, w =>
    match bwWCString (bwWrite w (u32le (i + 1))) e.name with
    | .error p => .error p
    | .ok w2 =>
      writeMetaBW (i + 1) es
        (bwWrite (bwWrite w2 (i64le (e.content.length : Int))) (u32le 0))

/-- The content loop of `Builder::write_to`: every entry's raw bytes, in
append order. -/
def writeContentsBW : List Entry → BW → BW
  | [], w => w
  | e :: es, w => writeContentsBW es (bwWrite w e.content)

/-- `Builder::write_to` (`builder.rs`), state-level: header, version byte,
SteamID64, timestamp `t` (the wall clock at encode time, a parameter of the
model), required-content `0`, the three addon strings, addon version `1`, the
metadata loop, the zero terminator, the contents, the trailing zero marker,
and the final `flush`.  An error carries the `BufWriter` state at failure. -/
def Builder.writeToBW (b : Builder) (t : Nat) : Except (GmaError × BW) BW :=
  let w5 := bwWrite (bwWrite (bwWrite (bwWrite (bwWrite ⟨[], []⟩
    HEADER) [3]) (i64le b.steam_id64)) (u64le t)) [0]
  match bwWCString w5 b.name with
  | .error p => .error p
  | .ok w6 =>
    match bwWCString w6 b.description with
    | .error p => .error p
    | .ok w7 =>
      match bwWCString w7 b.author with
      | .error p => .error p
      | .ok w8 =>
        match writeMetaBW 0 b.entries (bwWrite w8 (i32le 1)) with
        | .error p => .error p
        | .ok w10 =>
          .ok (bwFlush
            (bwWrite (writeContentsBW b.entries (bwWrite w10 (u32le 0)))
              (u32le 0)))

/-- `Builder::write_to`: the bytes delivered to the sink on success, or the
error. -/
def Builder.write_to (b : Builder) (t : Nat) : Except GmaError (List UInt8) :=
  match b.writeToBW t with
  | .ok w => .ok w.sink
  | .error (e, _) => .error e

/-! ## Specification-shaped byte strings

The following pure concatenations describe the wire format field by field;
`write_to_ok` below proves that the `BufWriter`-threaded encoder delivers
exactly these bytes. -/

/-- The metadata records for `es`, the entry at offset `k` of `es` carrying
the 1-based index `i + k + 1`, the entry name, the content length as `i64`,
and a zero CRC. -/
def metaBytes (i : Nat) : List Entry → List UInt8
  | [] => []
  | e :: es =>
    u32le (i + 1) ++ e.name ++ [0] ++ i64le (e.content.length : Int) ++
      u32le 0 ++ metaBytes (i + 1) es

/-- All entry contents, concatenated in order. -/
def contentsBytes (es : List Entry) : List UInt8 := (es.map Entry.content).flatten

/-- Everything an encode emits before the metadata loop: magic, version,
SteamID64, timestamp, required-content `0`, the three null-terminated addon
strings, and the constant addon version `1`. -/
def gmaPre (b : Builder) (t : Nat) : List UInt8 :=
  HEADER ++ [3] ++ i64le b.steam_id64 ++ u64le t ++ [0] ++
    b.name ++ [0] ++ b.description ++ [0] ++ b.author ++ [0] ++ i32le 1

/-- The full wire image of an archive: preamble, metadata records, zero
terminator, contents, trailing zero marker. -/
def gmaBytes (b : Builder) (t : Nat) : List UInt8 :=
  gmaPre b t ++ metaBytes 0 b.entries ++ u32le 0 ++
    contentsBytes b.entries ++ u32le 0

/-- A preamble of the general wire shape accepted by the decoder: arbitrary
8-byte SteamID64 and timestamp fields, an arbitrary flag byte, three
null-free strings, and an arbitrary 4-byte addon-version field. -/
def anyPre (id8 ts8 : List UInt8) (fl : UInt8) (n1 n2 n3 v4 : List UInt8) :
    List UInt8 :=
  HEADER ++ [3] ++ id8 ++ ts8 ++ [fl] ++ n1 ++ [0] ++ n2 ++ [0] ++ n3 ++ [0] ++ v4

/-- The strings an encode writes as C strings: the three addon fields and
every entry name.  `write_to` succeeds exactly when all are null-free. -/
def Builder.wfStrings (b : Builder) : Prop :=
  0 ∉ b.name ∧ 0 ∉ b.description ∧ 0 ∉ b.author ∧ ∀ e ∈ b.entries, 0 ∉ e.name

instance (b : Builder) : Decidable b.wfStrings := by
  unfold Builder.wfStrings; infer_instance

/-! ## Byte-level lemmas -/

theorem leBytes_length (w n : Nat) : (leBytes w n).length = w := by
  induction w generalizing n with
  | zero => rfl
  | succ w ih => simp [leBytes, ih]

theorem toNat_ofNat_byte (n : Nat) : (UInt8.ofNat n).toNat = n % 256 := rfl

theorem leVal_leBytes (w n : Nat) : leVal (leBytes w n) = n % 256 ^ w := by
  induction w generalizing n with
  | zero => simp [leBytes, leVal, Nat.mod_one]
  | succ w ih =>
    simp only [leBytes, leVal, ih, toNat_ofNat_byte]
    rw [pow_succ, mul_comm (256 ^ w) 256, Nat.mod_mul,
      Nat.mod_mod_of_dvd n (dvd_refl 256)]

theorem length_u32le (n : Nat) : (u32le n).length = 4 := leBytes_length 4 n

theorem length_u64le (n : Nat) : (u64le n).length = 8 := leBytes_length 8 n

theorem length_i64le (v : Int) : (i64le v).length = 8 := leBytes_length 8 _

theorem length_i32le (v : Int) : (i32le v).length = 4 := leBytes_length 4 _

/-! ## Success-path lemmas for the reader primitives -/

theorem readExact_append (a r : List UInt8) :
    readExact a.length (a ++ r) = .ok (a, r) := by
  simp [readExact, List.take_left, List.drop_left]

theorem readExact_append_of_length {n : Nat} (a r : List UInt8)
    (h : a.length = n) : readExact n (a ++ r) = .ok (a, r) := by
  subst h; exact readExact_append a r

theorem discardExact_append {n : Nat} (a r : List UInt8) (h : a.length = n) :
    discardExact n (a ++ r) = .ok ((), r) := by
  simp [discardExact, readExact_append_of_length a r h]

theorem readI8_cons (b : UInt8) (r : List UInt8) :
    readI8 (b :: r) = .ok (i8OfByte b, r) := by
  have : readExact 1 ([b] ++ r) = .ok ([b], r) :=
    readExact_append_of_length [b] r rfl
  simp only [readI8, List.singleton_append] at this ⊢
  simp [this, List.headI]

theorem readU32_append (n : Nat) (r : List UInt8) :
    readU32 (u32le n ++ r) = .ok (n % 2 ^ 32, r) := by
  have h : readExact 4 (u32le n ++ r) = .ok (u32le n, r) :=
    readExact_append_of_length _ r (length_u32le n)
  simp only [readU32, h]
  have hval : leVal (u32le n) = n % 256 ^ 4 := leVal_leBytes 4 n
  have h256 : (256 : Nat) ^ 4 = 2 ^ 32 := by norm_num
  rw [hval, h256]

theorem readU32_append_small {n : Nat} (h : n < 2 ^ 32) (r : List UInt8) :
    readU32 (u32le n ++ r) = .ok (n, r) := by
  rw [readU32_append, Nat.mod_eq_of_lt h]

theorem readI64_append (v : Int) (hlo : -2 ^ 63 ≤ v) (hhi : v < 2 ^ 63)
    (r : List UInt8) : readI64 (i64le v ++ r) = .ok (v, r) := by
  have h : readExact 8 (i64le v ++ r) = .ok (i64le v, r) :=
    readExact_append_of_length _ r (length_i64le v)
  simp only [readI64, h]
  have hval : leVal (i64le v) = (v % 2 ^ 64).toNat % 256 ^ 8 :=
    leVal_leBytes 8 _
  have h256 : (256 : Nat) ^ 8 = 2 ^ 64 := by norm_num
  rw [hval, h256]
  have heq : (if (v % 2 ^ 64).toNat % 2 ^ 64 < 2 ^ 63
      then (((v % 2 ^ 64).toNat % 2 ^ 64 : Nat) : Int)
      else (((v % 2 ^ 64).toNat % 2 ^ 64 : Nat) : Int) - 2 ^ 64) = v := by
    split <;> omega
  rw [heq]

theorem splitAtNull_some {s p q : List UInt8} (h : splitAtNull s = some (p, q)) :
    s = p ++ 0 :: q ∧ 0 ∉ p := by
  induction s generalizing p q with
  | nil => simp [splitAtNull] at h
  | cons b t ih =>
    by_cases hb : b = 0
    · subst hb
      simp [splitAtNull] at h
      obtain ⟨hp, hq⟩ := h
      subst hp; subst hq
      simp
    · simp only [splitAtNull, if_neg hb] at h
      cases hsp : splitAtNull t with
      | none => rw [hsp] at h; simp at h
      | some pr =>
        rw [hsp] at h
        obtain ⟨p', q'⟩ := pr
        simp at h
        obtain ⟨hp, hq⟩ := h
        obtain ⟨ht, hmem⟩ := ih hsp
        subst hp; subst hq; subst ht
        constructor
        · simp
        · simp only [List.mem_cons]
          push_neg
          constructor
          · exact fun he => hb he.symm
          · exact hmem

theorem splitAtNull_append {pre : List UInt8} (h : 0 ∉ pre)
    (post : List UInt8) : splitAtNull (pre ++ 0 :: post) = some (pre, post) := by
  induction pre with
  | nil => simp [splitAtNull]
  | cons b t ih =>
    have hb : b ≠ 0 := fun hb => h (by simp [hb])
    have ht : 0 ∉ t := fun hm => h (by simp [hm])
    simp only [List.cons_append, splitAtNull, if_neg hb, List.append_eq, ih ht,
      Option.map_some']

theorem splitAtNull_eq_none {s : List UInt8} (h : 0 ∉ s) :
    splitAtNull s = none := by
  induction s with
  | nil => rfl
  | cons b t ih =>
    have hb : b ≠ 0 := fun hb => h (by simp [hb])
    have ht : 0 ∉ t := fun hm => h (by simp [hm])
    simp [splitAtNull, if_neg hb, ih ht]

theorem readCString_append {pre : List UInt8} (h : 0 ∉ pre)
    (post : List UInt8) :
    readCString (pre ++ 0 :: post) = .ok (utf8Lossy pre, post) := by
  simp [readCString, splitAtNull_append h post]

theorem readCString_no_null {s : List UInt8} (h : 0 ∉ s) :
    readCString s = .error .MissingNullTerminator := by
  simp [readCString, splitAtNull_eq_none h]

/-! ## Consumption lemmas: how many bytes each primitive eats -/

theorem readExact_ok {n : Nat} {s a s1 : List UInt8}
    (h : readExact n s = .ok (a, s1)) :
    n ≤ s.length ∧ a = s.take n ∧ s1 = s.drop n := by
  by_cases hle : n ≤ s.length
  · simp [readExact, hle] at h
    exact ⟨hle, h.1.symm, h.2.symm⟩
  · simp [readExact, hle] at h

theorem readExact_len {n : Nat} {s a s1 : List UInt8}
    (h : readExact n s = .ok (a, s1)) : s1.length + n = s.length := by
  obtain ⟨hle, -, hd⟩ := readExact_ok h
  subst hd
  simp [List.length_drop]
  omega

theorem discardExact_len {n : Nat} {s : List UInt8} {u : Unit} {s1 : List UInt8}
    (h : discardExact n s = .ok (u, s1)) : s1.length + n = s.length := by
  unfold discardExact at h
  cases hr : readExact n s with
  | error e => rw [hr] at h; exact absurd h (by simp)
  | ok p =>
    rw [hr] at h
    obtain ⟨a, s2⟩ := p
    simp only [Except.ok.injEq, Prod.mk.injEq] at h
    obtain ⟨-, h2⟩ := h
    subst h2
    exact readExact_len hr

theorem readU32_len {s : List UInt8} {x : Nat} {s1 : List UInt8}
    (h : readU32 s = .ok (x, s1)) : s1.length + 4 = s.length := by
  unfold readU32 at h
  cases hr : readExact 4 s with
  | error e => rw [hr] at h; exact absurd h (by simp)
  | ok p =>
    rw [hr] at h
    obtain ⟨a, s2⟩ := p
    simp at h
    obtain ⟨-, h2⟩ := h
    subst h2
    exact readExact_len hr

theorem readI64_len {s : List UInt8} {x : Int} {s1 : List UInt8}
    (h : readI64 s = .ok (x, s1)) : s1.length + 8 = s.length := by
  unfold readI64 at h
  cases hr : readExact 8 s with
  | error e => rw [hr] at h; exact absurd h (by simp)
  | ok p =>
    rw [hr] at h
    obtain ⟨a, s2⟩ := p
    simp at h
    obtain ⟨-, h2⟩ := h
    subst h2
    exact readExact_len hr

theorem readCString_ok {s nm s1 : List UInt8}
    (h : readCString s = .ok (nm, s1)) :
    ∃ pre, s = pre ++ 0 :: s1 ∧ 0 ∉ pre ∧ nm = utf8Lossy pre := by
  unfold readCString at h
  cases hs : splitAtNull s with
  | none => rw [hs] at h; exact absurd h (by simp)
  | some p =>
    obtain ⟨pre, post⟩ := p
    rw [hs] at h
    simp only [Except.ok.injEq, Prod.mk.injEq] at h
    obtain ⟨h1, h2⟩ := h
    obtain ⟨heq, hmem⟩ := splitAtNull_some hs
    exact ⟨pre, by rw [heq, h2], hmem, h1.symm⟩

theorem readCString_len {s nm s1 : List UInt8}
    (h : readCString s = .ok (nm, s1)) : s1.length < s.length := by
  obtain ⟨pre, heq, -, -⟩ := readCString_ok h
  subst heq
  simp
  omega

/-! ## Rewriting helpers for `pbind` -/

theorem pbind_apply_error {α β : Type} {f : Phase α} {g : α → Phase β}
    {s : List UInt8} {e : GmaError} (h : f s = .error e) :
    pbind f g s = .error e := by
  simp [pbind, h]

theorem pbind_apply_ok {α β : Type} {f : Phase α} {g : α → Phase β}
    {s : List UInt8} {a : α} {s1 : List UInt8} (h : f s = .ok (a, s1)) :
    pbind f g s = g a s1 := by
  simp [pbind, h]

/-! ## Eliminating the fuel of the metadata loop -/

theorem readEntriesMetaF_congr : ∀ f1 f2 : Nat, ∀ s : List UInt8,
    s.length < f1 → s.length < f2 →
    readEntriesMetaF f1 s = readEntriesMetaF f2 s := by
  intro f1
  induction f1 with
  | zero => intro f2 s h1 _; omega
  | succ f1 ih =>
    intro f2 s h1 h2
    cases f2 with
    | zero => omega
    | succ f2 =>
      simp only [readEntriesMetaF]
      cases hu : readU32 s with
      | error e => rw [pbind_apply_error hu, pbind_apply_error hu]
      | ok p =>
        obtain ⟨idx, s1⟩ := p
        rw [pbind_apply_ok hu, pbind_apply_ok hu]
        by_cases hidx : idx = 0
        · simp [hidx]
        · simp only [if_neg hidx]
          cases hc : readCString s1 with
          | error e => rw [pbind_apply_error hc, pbind_apply_error hc]
          | ok q =>
            obtain ⟨nm, s2⟩ := q
            rw [pbind_apply_ok hc, pbind_apply_ok hc]
            cases hi : readI64 s2 with
            | error e => rw [pbind_apply_error hi, pbind_apply_error hi]
            | ok r2 =>
              obtain ⟨sz, s3⟩ := r2
              rw [pbind_apply_ok hi, pbind_apply_ok hi]
              by_cases hsz : sz < 0
              · simp [hsz]
              · simp only [if_neg hsz]
                cases hd : discardExact 4 s3 with
                | error e => rw [pbind_apply_error hd, pbind_apply_error hd]
                | ok r3 =>
                  obtain ⟨u, s4⟩ := r3
                  rw [pbind_apply_ok hd, pbind_apply_ok hd]
                  have l1 := readU32_len hu
                  have l2 := readCString_len hc
                  have l3 := readI64_len hi
                  have l4 := discardExact_len hd
                  have heq := ih f2 s4 (by omega) (by omega)
                  simp only [pbind, heq]

/-- One unfolding of the metadata loop, fuel-free: read a `u32` index (`0`
terminates), then the name, the size (negative → `SizeOutOfRange`), a
discarded CRC, and loop. -/
theorem readEntriesMeta_eq (s : List UInt8) :
    readEntriesMeta s =
      (pbind readU32 fun idx =>
        if idx = 0 then pok []
        else
          pbind readCString fun nm =>
            pbind readI64 fun sz =>
              if sz < 0 then perr (.SizeOutOfRange sz)
              else
                pbind (discardExact 4) fun _ =>
                  pbind readEntriesMeta fun m => pok ((nm, sz.toNat) :: m)) s := by
  show readEntriesMetaF (s.length + 1) s = _
  simp only [readEntriesMetaF]
  cases hu : readU32 s with
  | error e => rw [pbind_apply_error hu, pbind_apply_error hu]
  | ok p =>
    obtain ⟨idx, s1⟩ := p
    rw [pbind_apply_ok hu, pbind_apply_ok hu]
    by_cases hidx : idx = 0
    · simp [hidx]
    · simp only [if_neg hidx]
      cases hc : readCString s1 with
      | error e => rw [pbind_apply_error hc, pbind_apply_error hc]
      | ok q =>
        obtain ⟨nm, s2⟩ := q
        rw [pbind_apply_ok hc, pbind_apply_ok hc]
        cases hi : readI64 s2 with
        | error e => rw [pbind_apply_error hi, pbind_apply_error hi]
        | ok r2 =>
          obtain ⟨sz, s3⟩ := r2
          rw [pbind_apply_ok hi, pbind_apply_ok hi]
          by_cases hsz : sz < 0
          · simp [hsz]
          · simp only [if_neg hsz]
            cases hd : discardExact 4 s3 with
            | error e => rw [pbind_apply_error hd, pbind_apply_error hd]
            | ok r3 =>
              obtain ⟨u, s4⟩ := r3
              rw [pbind_apply_ok hd, pbind_apply_ok hd]
              have l1 := readU32_len hu
              have l2 := readCString_len hc
              have l3 := readI64_len hi
              have l4 := discardExact_len hd
              have heq : readEntriesMetaF s.length s4 =
                  readEntriesMeta s4 :=
                readEntriesMetaF_congr _ _ s4 (by omega) (by omega)
              simp only [pbind, heq]

/-! ## Decoding an encoded stream -/

theorem readEntriesMeta_metaBytes : ∀ (es : List Entry) (i : Nat)
    (rest : List UInt8), (∀ e ∈ es, 0 ∉ e.name) →
    (∀ e ∈ es, e.content.length < 2 ^ 63) → i + es.length < 2 ^ 32 →
    readEntriesMeta (metaBytes i es ++ u32le 0 ++ rest) =
      .ok (es.map fun e => (utf8Lossy e.name, e.content.length), rest) := by
  intro es
  induction es with
  | nil =>
    intro i rest _ _ _
    rw [readEntriesMeta_eq]
    have hu : readU32 (metaBytes i [] ++ u32le 0 ++ rest) = .ok (0, rest) := by
      simp only [metaBytes, List.nil_append]
      exact readU32_append_small (by norm_num) rest
    rw [pbind_apply_ok hu]
    simp [pok]
  | cons e es ih =>
    intro i rest hn hsz hlen
    have hlen' : i + es.length + 1 < 2 ^ 32 := by
      simp only [List.length_cons] at hlen
      omega
    rw [readEntriesMeta_eq]
    have hassoc : metaBytes i (e :: es) ++ u32le 0 ++ rest =
        u32le (i + 1) ++ (e.name ++ 0 ::
          (i64le (e.content.length : Int) ++ (u32le 0 ++
            (metaBytes (i + 1) es ++ u32le 0 ++ rest)))) := by
      simp [metaBytes, List.append_assoc]
    rw [hassoc]
    have hu := readU32_append_small (n := i + 1) (by omega)
      (e.name ++ 0 :: (i64le (e.content.length : Int) ++ (u32le 0 ++
        (metaBytes (i + 1) es ++ u32le 0 ++ rest))))
    rw [pbind_apply_ok hu, if_neg (by omega : ¬ (i + 1 = 0))]
    have hc := readCString_append (hn e (by simp))
      (i64le (e.content.length : Int) ++ (u32le 0 ++
        (metaBytes (i + 1) es ++ u32le 0 ++ rest)))
    rw [pbind_apply_ok hc]
    have hcl : (e.content.length : Int) < 2 ^ 63 := by
      have := hsz e (by simp)
      exact_mod_cast this
    have hnn : (0 : Int) ≤ (e.content.length : Int) := Int.natCast_nonneg _
    have hi := readI64_append (e.content.length : Int) (by omega) hcl
      (u32le 0 ++ (metaBytes (i + 1) es ++ u32le 0 ++ rest))
    rw [pbind_apply_ok hi, if_neg (by omega : ¬ ((e.content.length : Int) < 0))]
    have hd := discardExact_append (n := 4) (u32le 0)
      (metaBytes (i + 1) es ++ u32le 0 ++ rest) (length_u32le 0)
    rw [pbind_apply_ok hd]
    have hrec := ih (i + 1) rest (fun x hx => hn x (by simp [hx]))
      (fun x hx => hsz x (by simp [hx]))
      (by omega)
    rw [pbind_apply_ok hrec]
    simp [pok]

theorem readContents_append : ∀ (es : List Entry) (rest : List UInt8),
    readContents (es.map fun e => (utf8Lossy e.name, e.content.length))
      (contentsBytes es ++ rest) =
      .ok (es.map fun e => ⟨utf8Lossy e.name, e.content, e.content.length⟩,
        rest) := by
  intro es
  induction es with
  | nil => intro rest; simp [readContents, contentsBytes, pok]
  | cons e es ih =>
    intro rest
    have hassoc : contentsBytes (e :: es) ++ rest =
        e.content ++ (contentsBytes es ++ rest) := by
      simp [contentsBytes]
    simp only [List.map_cons, readContents, hassoc]
    rw [pbind_apply_ok (readExact_append e.content (contentsBytes es ++ rest)),
      pbind_apply_ok (ih rest)]
    simp [pok]

theorem i8OfByte_three : i8OfByte 3 = VERSION := by decide

theorem readP_anyPre (id8 ts8 : List UInt8) (fl : UInt8)
    (n1 n2 n3 v4 rest : List UInt8) (h8 : id8.length = 8)
    (h8' : ts8.length = 8) (h4 : v4.length = 4) (hn1 : 0 ∉ n1) (hn2 : 0 ∉ n2)
    (hn3 : 0 ∉ n3) :
    readP (anyPre id8 ts8 fl n1 n2 n3 v4 ++ rest) = readTailP rest := by
  have hs : anyPre id8 ts8 fl n1 n2 n3 v4 ++ rest =
      HEADER ++ (3 :: (id8 ++ (ts8 ++ ([fl] ++ (n1 ++ 0 ::
        (n2 ++ 0 :: (n3 ++ 0 :: (v4 ++ rest))))))))  := by
    simp [anyPre, HEADER, List.append_assoc]
  rw [hs]
  unfold readP
  rw [pbind_apply_ok (readExact_append_of_length (n := 4) HEADER _ rfl),
    if_pos rfl,
    pbind_apply_ok (readI8_cons 3 _), i8OfByte_three, if_pos rfl,
    pbind_apply_ok (discardExact_append id8 _ h8),
    pbind_apply_ok (discardExact_append ts8 _ h8'),
    pbind_apply_ok (discardExact_append (n := 1) [fl] _ rfl),
    pbind_apply_ok (readCString_append hn1 _),
    pbind_apply_ok (readCString_append hn2 _),
    pbind_apply_ok (readCString_append hn3 _),
    pbind_apply_ok (discardExact_append v4 _ h4)]

theorem gmaPre_eq_anyPre (b : Builder) (t : Nat) :
    gmaPre b t = anyPre (i64le b.steam_id64) (u64le t) 0 b.name
      b.description b.author (i32le 1) := by
  simp [gmaPre, anyPre]

/-- Decoding the wire image of a builder succeeds with exactly the builder's
entries: the names lossily re-decoded, the contents verbatim, the sizes
recomputed from the content lengths. -/
theorem readP_gmaBytes (b : Builder) (t : Nat) (hw : b.wfStrings)
    (h32 : b.entries.length < 2 ^ 32)
    (h63 : ∀ e ∈ b.entries, e.content.length < 2 ^ 63) :
    readP (gmaBytes b t) =
      .ok (b.entries.map fun e => ⟨utf8Lossy e.name, e.content,
        e.content.length⟩, []) := by
  obtain ⟨hn, hd, ha, he⟩ := hw
  have hs : gmaBytes b t =
      anyPre (i64le b.steam_id64) (u64le t) 0 b.name b.description b.author
        (i32le 1) ++
      (metaBytes 0 b.entries ++ u32le 0 ++ (contentsBytes b.entries ++ u32le 0)) := by
    rw [gmaBytes, gmaPre_eq_anyPre]
    simp [List.append_assoc]
  rw [hs, readP_anyPre _ _ _ _ _ _ _ _ (length_i64le _) (length_u64le _)
    (length_i32le _) hn hd ha]
  unfold readTailP
  rw [pbind_apply_ok (readEntriesMeta_metaBytes b.entries 0
    (contentsBytes b.entries ++ u32le 0) he h63 (by omega))]
  unfold readBodyP
  rw [pbind_apply_ok (readContents_append b.entries (u32le 0))]
  have hu : readU32 (u32le 0) = .ok (0, []) := by
    have := readU32_append_small (n := 0) (by norm_num) []
    simpa using this
  rw [pbind_apply_ok hu]
  simp [pok]

/-- `read` on an encoded stream. -/
theorem read_gmaBytes (b : Builder) (t : Nat) (hw : b.wfStrings)
    (h32 : b.entries.length < 2 ^ 32)
    (h63 : ∀ e ∈ b.entries, e.content.length < 2 ^ 63) :
    read (gmaBytes b t) =
      .ok (b.entries.map fun e => ⟨utf8Lossy e.name, e.content,
        e.content.length⟩) := by
  unfold read
  rw [readP_gmaBytes b t hw h32 h63]

/-! ## What the encoder delivers -/

/-- All bytes a writer state accounts for: already on the sink, or still
buffered. -/
def bwOut (w : BW) : List UInt8 := w.sink ++ w.buf

theorem bwOut_write (w : BW) (d : List UInt8) :
    bwOut (bwWrite w d) = bwOut w ++ d := by
  unfold bwOut bwWrite bwFlush
  by_cases h1 : bwCap < w.buf.length + d.length
  · simp only [if_pos h1]
    by_cases h2 : bwCap ≤ d.length <;> simp [h2, List.append_assoc]
  · simp only [if_neg h1]
    by_cases h2 : bwCap ≤ d.length
    · have hb : w.buf = [] := by
        have hl : w.buf.length = 0 := by unfold bwCap at h1 h2; omega
        exact List.length_eq_zero.mp hl
      simp [h2, hb]
    · simp [h2, List.append_assoc]

theorem bwFlush_sink (w : BW) : (bwFlush w).sink = bwOut w := rfl

/-- `bwWrite` when the buffer cannot absorb `d` but `d` alone is below
capacity: the buffer is flushed and `d` is buffered. -/
theorem bwWrite_spill (sk bf d : List UInt8)
    (h1 : bwCap < bf.length + d.length) (h2 : ¬ bwCap ≤ d.length) :
    bwWrite ⟨sk, bf⟩ d = ⟨sk ++ bf, d⟩ := by
  simp only [bwWrite, bwFlush, if_pos h1, if_neg h2, List.nil_append]

/-- `bwWrite` when the buffer can absorb `d`: it is just buffered. -/
theorem bwWrite_keep (sk bf d : List UInt8)
    (h1 : ¬ bwCap < bf.length + d.length) (h2 : ¬ bwCap ≤ d.length) :
    bwWrite ⟨sk, bf⟩ d = ⟨sk, bf ++ d⟩ := by
  simp only [bwWrite, bwFlush, if_neg h1, if_neg h2]

theorem bwOut_nil : bwOut ⟨[], []⟩ = [] := rfl

theorem bwWCString_ok_eq {s : List UInt8} (h : 0 ∉ s) (w : BW) :
    bwWCString w s = .ok (bwWrite (bwWrite w s) [0]) := by
  simp [bwWCString, h]

theorem bwWCString_err {s : List UInt8} (h : 0 ∈ s) (w : BW) :
    bwWCString w s = .error (.Io .invalidInput, w) := by
  simp [bwWCString, h]

theorem writeMetaBW_ok : ∀ (es : List Entry) (i : Nat) (w : BW),
    (∀ e ∈ es, 0 ∉ e.name) →
    ∃ w', writeMetaBW i es w = .ok w' ∧
      bwOut w' = bwOut w ++ metaBytes i es := by
  intro es
  induction es with
  | nil => intro i w _; exact ⟨w, rfl, by simp [metaBytes]⟩
  | cons e es ih =>
    intro i w hn
    have hne : 0 ∉ e.name := hn e (by simp)
    obtain ⟨w', hmeta, hout⟩ := ih (i + 1)
      (bwWrite (bwWrite (bwWrite (bwWrite (bwWrite w (u32le (i + 1)))
        e.name) [0]) (i64le (e.content.length : Int))) (u32le 0))
      (fun x hx => hn x (by simp [hx]))
    refine ⟨w', ?_, ?_⟩
    · unfold writeMetaBW
      rw [bwWCString_ok_eq hne]
      exact hmeta
    · rw [hout]
      simp [bwOut_write, metaBytes, List.append_assoc]

theorem writeContentsBW_out : ∀ (es : List Entry) (w : BW),
    bwOut (writeContentsBW es w) = bwOut w ++ contentsBytes es := by
  intro es
  induction es with
  | nil => intro w; simp [writeContentsBW, contentsBytes]
  | cons e es ih =>
    intro w
    simp [writeContentsBW, ih, bwOut_write, contentsBytes, List.append_assoc]

/-- On a null-free builder, the encoder succeeds and its flushed sink holds
exactly the wire image `gmaBytes`. -/
theorem writeToBW_ok (b : Builder) (t : Nat) (hn : 0 ∉ b.name)
    (hd : 0 ∉ b.description) (ha : 0 ∉ b.author)
    (he : ∀ e ∈ b.entries, 0 ∉ e.name) :
    ∃ w', b.writeToBW t = .ok w' ∧ w'.sink = gmaBytes b t ∧ w'.buf = [] := by
  unfold Builder.writeToBW
  simp only [bwWCString_ok_eq hn, bwWCString_ok_eq hd, bwWCString_ok_eq ha]
  obtain ⟨w10, hmeta, hout10⟩ := writeMetaBW_ok b.entries 0 _ he
  rw [hmeta]
  refine ⟨_, rfl, ?_, rfl⟩
  rw [bwFlush_sink, bwOut_write, writeContentsBW_out, bwOut_write, hout10]
  simp only [bwOut_write, bwOut_nil]
  simp [gmaBytes, gmaPre, List.append_assoc]

/-- `Builder::write_to` on a null-free builder emits exactly the wire
image. -/
theorem write_to_ok (b : Builder) (t : Nat) (hw : b.wfStrings) :
    b.write_to t = .ok (gmaBytes b t) := by
  obtain ⟨hn, hd, ha, he⟩ := hw
  obtain ⟨w', hww, hsink, -⟩ := writeToBW_ok b t hn hd ha he
  unfold Builder.write_to
  rw [hww]
  simp [hsink]

/-! ## What the encoder has delivered when it rejects a null byte -/

theorem writeMetaBW_err : ∀ (es1 : List Entry) (e : Entry) (es2 : List Entry)
    (i : Nat) (w : BW), (∀ x ∈ es1, 0 ∉ x.name) → 0 ∈ e.name →
    ∃ w', writeMetaBW i (es1 ++ e :: es2) w = .error (.Io .invalidInput, w') ∧
      bwOut w' = bwOut w ++ metaBytes i es1 ++ u32le (i + es1.length + 1) := by
  intro es1
  induction es1 with
  | nil =>
    intro e es2 i w _ hme
    refine ⟨bwWrite w (u32le (i + 1)), ?_, ?_⟩
    · show writeMetaBW i (e :: es2) w = _
      unfold writeMetaBW
      rw [bwWCString_err hme]
    · simp [metaBytes, bwOut_write]
  | cons x es1 ih =>
    intro e es2 i w hn hme
    have hxe : 0 ∉ x.name := hn x (by simp)
    obtain ⟨w', herr, hout⟩ := ih e es2 (i + 1)
      (bwWrite (bwWrite (bwWrite (bwWrite (bwWrite w (u32le (i + 1)))
        x.name) [0]) (i64le (x.content.length : Int))) (u32le 0))
      (fun y hy => hn y (by simp [hy])) hme
    refine ⟨w', ?_, ?_⟩
    · show writeMetaBW i (x :: (es1 ++ e :: es2)) w = _
      unfold writeMetaBW
      rw [bwWCString_ok_eq hxe]
      exact herr
    · rw [hout]
      have hidx : i + 1 + es1.length + 1 = i + (x :: es1).length + 1 := by
        simp
        omega
      rw [hidx]
      simp [bwOut_write, metaBytes, List.append_assoc]

theorem writeToBW_err_name (b : Builder) (t : Nat) (h : 0 ∈ b.name) :
    ∃ w', b.writeToBW t = .error (.Io .invalidInput, w') ∧
      bwOut w' = HEADER ++ [3] ++ i64le b.steam_id64 ++ u64le t ++ [0] := by
  unfold Builder.writeToBW
  simp only [bwWCString_err h]
  refine ⟨_, rfl, ?_⟩
  simp only [bwOut_write, bwOut_nil]
  simp [List.append_assoc]

theorem writeToBW_err_description (b : Builder) (t : Nat) (hn : 0 ∉ b.name)
    (h : 0 ∈ b.description) :
    ∃ w', b.writeToBW t = .error (.Io .invalidInput, w') ∧
      bwOut w' = HEADER ++ [3] ++ i64le b.steam_id64 ++ u64le t ++ [0] ++
        b.name ++ [0] := by
  unfold Builder.writeToBW
  simp only [bwWCString_ok_eq hn, bwWCString_err h]
  refine ⟨_, rfl, ?_⟩
  simp only [bwOut_write, bwOut_nil]
  simp [List.append_assoc]

theorem writeToBW_err_author (b : Builder) (t : Nat) (hn : 0 ∉ b.name)
    (hd : 0 ∉ b.description) (h : 0 ∈ b.author) :
    ∃ w', b.writeToBW t = .error (.Io .invalidInput, w') ∧
      bwOut w' = HEADER ++ [3] ++ i64le b.steam_id64 ++ u64le t ++ [0] ++
        b.name ++ [0] ++ b.description ++ [0] := by
  unfold Builder.writeToBW
  simp only [bwWCString_ok_eq hn, bwWCString_ok_eq hd, bwWCString_err h]
  refine ⟨_, rfl, ?_⟩
  simp only [bwOut_write, bwOut_nil]
  simp [List.append_assoc]

theorem writeToBW_err_entry (b : Builder) (t : Nat) (hn : 0 ∉ b.name)
    (hd : 0 ∉ b.description) (ha : 0 ∉ b.author) (es1 : List Entry)
    (e : Entry) (es2 : List Entry) (hsplit : b.entries = es1 ++ e :: es2)
    (hclean : ∀ x ∈ es1, 0 ∉ x.name) (hme : 0 ∈ e.name) :
    ∃ w', b.writeToBW t = .error (.Io .invalidInput, w') ∧
      bwOut w' = gmaPre b t ++ metaBytes 0 es1 ++ u32le (es1.length + 1) := by
  unfold Builder.writeToBW
  simp only [bwWCString_ok_eq hn, bwWCString_ok_eq hd, bwWCString_ok_eq ha,
    hsplit]
  obtain ⟨w', herr, hout⟩ := writeMetaBW_err es1 e es2 0 _ hclean hme
  rw [herr]
  refine ⟨w', rfl, ?_⟩
  rw [hout]
  simp only [bwOut_write, bwOut_nil, Nat.zero_add]
  simp [gmaPre, List.append_assoc]

theorem exists_first_offender : ∀ es : List Entry, (∃ e ∈ es, 0 ∈ e.name) →
    ∃ es1 e es2, es = es1 ++ e :: es2 ∧ (∀ x ∈ es1, 0 ∉ x.name) ∧
      0 ∈ e.name := by
  intro es
  induction es with
  | nil => intro h; simp at h
  | cons x es ih =>
    intro h
    by_cases hx : 0 ∈ x.name
    · exact ⟨[], x, es, by simp, by simp, hx⟩
    · obtain ⟨e, he, hme⟩ := h
      have hees : e ∈ es := by
        rcases List.mem_cons.mp he with h1 | h1
        · exact absurd hme (h1 ▸ hx)
        · exact h1
      obtain ⟨es1, e', es2, heq, hcl, hme'⟩ := ih ⟨e, hees, hme⟩
      exact ⟨x :: es1, e', es2, by simp [heq],
        by
          intro y hy
          rcases List.mem_cons.mp hy with h1 | h1
          · exact h1 ▸ hx
          · exact hcl y h1,
        hme'⟩

/-- Whenever any written string holds a null byte, `write_to` fails with
`InvalidInput`. -/
theorem write_to_err (b : Builder) (t : Nat)
    (h : 0 ∈ b.name ∨ 0 ∈ b.description ∨ 0 ∈ b.author ∨
      ∃ e ∈ b.entries, 0 ∈ e.name) :
    b.write_to t = .error (.Io .invalidInput) := by
  unfold Builder.write_to
  by_cases h1 : 0 ∈ b.name
  · obtain ⟨w', herr, -⟩ := writeToBW_err_name b t h1
    rw [herr]
  · by_cases h2 : 0 ∈ b.description
    · obtain ⟨w', herr, -⟩ := writeToBW_err_description b t h1 h2
      rw [herr]
    · by_cases h3 : 0 ∈ b.author
      · obtain ⟨w', herr, -⟩ := writeToBW_err_author b t h1 h2 h3
        rw [herr]
      · have h4 : ∃ e ∈ b.entries, 0 ∈ e.name := by tauto
        obtain ⟨es1, e, es2, heq, hcl, hme⟩ :=
          exists_first_offender b.entries h4
        obtain ⟨w', herr, -⟩ :=
          writeToBW_err_entry b t h1 h2 h3 es1 e es2 heq hcl hme
        rw [herr]

/-! ## Suffix extension: a successful read never looks past what it consumed -/

/-- `f` is insensitive, at input `r`, to bytes appended after `r`: a
successful parse returns the same value and passes the new bytes through. -/
def ExtAt {α : Type} (f : Phase α) (r : List UInt8) : Prop :=
  ∀ a rest u, f r = .ok (a, rest) → f (r ++ u) = .ok (a, rest ++ u)

theorem extAt_congr {α : Type} {f f' : Phase α} (h : ∀ s, f s = f' s)
    (r : List UInt8) (hf : ExtAt f r) : ExtAt f' r := by
  intro a rest u hok
  rw [← h r] at hok
  rw [← h (r ++ u)]
  exact hf a rest u hok

theorem extAt_pbind {α β : Type} {f : Phase α} {g : α → Phase β}
    {r : List UInt8} (hf : ExtAt f r)
    (hg : ∀ a r1, f r = .ok (a, r1) → ExtAt (g a) r1) :
    ExtAt (pbind f g) r := by
  intro b rest u hok
  unfold pbind at hok ⊢
  cases hfr : f r with
  | error e => rw [hfr] at hok; exact absurd hok (by simp)
  | ok p =>
    obtain ⟨a, r1⟩ := p
    rw [hfr] at hok
    rw [hf a r1 u hfr]
    exact hg a r1 hfr b rest u hok

theorem extAt_pok {α : Type} (a : α) (r : List UInt8) : ExtAt (pok a) r := by
  intro b rest u hok
  simp only [pok, Except.ok.injEq, Prod.mk.injEq] at hok
  obtain ⟨h1, h2⟩ := hok
  subst h1 h2
  rfl

theorem extAt_perr {α : Type} (e : GmaError) (r : List UInt8) :
    ExtAt (perr (α := α) e) r := by
  intro b rest u hok
  simp [perr] at hok

theorem extAt_readExact (n : Nat) (r : List UInt8) : ExtAt (readExact n) r := by
  intro a rest u hok
  obtain ⟨hle, ha, hr⟩ := readExact_ok hok
  subst ha hr
  simp only [readExact]
  rw [if_pos (by simp; omega), List.take_append_of_le_length hle,
    List.drop_append_of_le_length hle]

theorem extAt_discardExact (n : Nat) (r : List UInt8) :
    ExtAt (discardExact n) r := by
  intro a rest u hok
  unfold discardExact at hok ⊢
  cases hfr : readExact n r with
  | error e => rw [hfr] at hok; exact absurd hok (by simp)
  | ok p =>
    obtain ⟨x, r1⟩ := p
    rw [hfr] at hok
    simp only [Except.ok.injEq, Prod.mk.injEq] at hok
    obtain ⟨-, h2⟩ := hok
    subst h2
    rw [extAt_readExact n r x r1 u hfr]

theorem extAt_readI8 (r : List UInt8) : ExtAt readI8 r := by
  intro a rest u hok
  unfold readI8 at hok ⊢
  cases hfr : readExact 1 r with
  | error e => rw [hfr] at hok; exact absurd hok (by simp)
  | ok p =>
    obtain ⟨x, r1⟩ := p
    rw [hfr] at hok
    simp only [Except.ok.injEq, Prod.mk.injEq] at hok
    obtain ⟨h1, h2⟩ := hok
    subst h1 h2
    rw [extAt_readExact 1 r x r1 u hfr]

theorem extAt_readU32 (r : List UInt8) : ExtAt readU32 r := by
  intro a rest u hok
  unfold readU32 at hok ⊢
  cases hfr : readExact 4 r with
  | error e => rw [hfr] at hok; exact absurd hok (by simp)
  | ok p =>
    obtain ⟨x, r1⟩ := p
    rw [hfr] at hok
    simp only [Except.ok.injEq, Prod.mk.injEq] at hok
    obtain ⟨h1, h2⟩ := hok
    subst h1 h2
    rw [extAt_readExact 4 r x r1 u hfr]

theorem extAt_readI64 (r : List UInt8) : ExtAt readI64 r := by
  intro a rest u hok
  unfold readI64 at hok ⊢
  cases hfr : readExact 8 r with
  | error e => rw [hfr] at hok; exact absurd hok (by simp)
  | ok p =>
    obtain ⟨x, r1⟩ := p
    rw [hfr] at hok
    simp only [Except.ok.injEq, Prod.mk.injEq] at hok
    obtain ⟨h1, h2⟩ := hok
    subst h1 h2
    rw [extAt_readExact 8 r x r1 u hfr]

theorem extAt_readCString (r : List UInt8) : ExtAt readCString r := by
  intro a rest u hok
  obtain ⟨pre, heq, hmem, hnm⟩ := readCString_ok hok
  subst heq hnm
  have : (pre ++ 0 :: rest) ++ u = pre ++ 0 :: (rest ++ u) := by simp
  rw [this, readCString_append hmem]

theorem extAt_readEntriesMeta : ∀ r : List UInt8, ExtAt readEntriesMeta r := by
  have main : ∀ n : Nat, ∀ r : List UInt8, r.length ≤ n →
      ExtAt readEntriesMeta r := by
    intro n
    induction n with
    | zero =>
      intro r hr
      apply extAt_congr (fun s => (readEntriesMeta_eq s).symm)
      apply extAt_pbind (extAt_readU32 r)
      intro idx r1 hu
      have := readU32_len hu
      omega
    | succ n ih =>
      intro r hr
      apply extAt_congr (fun s => (readEntriesMeta_eq s).symm)
      apply extAt_pbind (extAt_readU32 r)
      intro idx r1 hu
      by_cases hidx : idx = 0
      · rw [if_pos hidx]; exact extAt_pok [] r1
      · rw [if_neg hidx]
        apply extAt_pbind (extAt_readCString r1)
        intro nm r2 hc
        apply extAt_pbind (extAt_readI64 r2)
        intro sz r3 hi
        by_cases hsz : sz < 0
        · rw [if_pos hsz]; exact extAt_perr _ r3
        · rw [if_neg hsz]
          apply extAt_pbind (extAt_discardExact 4 r3)
          intro x r4 hdd
          apply extAt_pbind
          · apply ih
            have l1 := readU32_len hu
            have l2 := readCString_len hc
            have l3 := readI64_len hi
            have l4 := discardExact_len hdd
            omega
          · intro m r5 hm
            exact extAt_pok _ r5
  intro r
  exact main r.length r le_rfl

theorem extAt_readContents : ∀ (meta : List (List UInt8 × Nat))
    (r : List UInt8), ExtAt (readContents meta) r := by
  intro meta
  induction meta with
  | nil => intro r; exact extAt_pok [] r
  | cons p meta ih =>
    intro r
    obtain ⟨nm, sz⟩ := p
    apply extAt_pbind (extAt_readExact sz r)
    intro content r1 hc
    apply extAt_pbind (ih r1)
    intro es r2 hes
    exact extAt_pok _ r2

theorem extAt_readBodyP (meta : List (List UInt8 × Nat)) (r : List UInt8) :
    ExtAt (readBodyP meta) r := by
  apply extAt_pbind (extAt_readContents meta r)
  intro entries r1 hc
  apply extAt_pbind (extAt_readU32 r1)
  intro tr r2 hu
  by_cases htr : tr = 0
  · rw [if_pos htr]; exact extAt_pok _ r2
  · rw [if_neg htr]; exact extAt_perr _ r2

theorem extAt_readP (s : List UInt8) : ExtAt readP s := by
  apply extAt_pbind (extAt_readExact 4 s)
  intro hdr s1 h1
  by_cases hh : hdr = HEADER
  · rw [if_pos hh]
    apply extAt_pbind (extAt_readI8 s1)
    intro v s2 h2
    by_cases hv : v = VERSION
    · rw [if_pos hv]
      apply extAt_pbind (extAt_discardExact 8 s2)
      intro x s3 h3
      apply extAt_pbind (extAt_discardExact 8 s3)
      intro x s4 h4
      apply extAt_pbind (extAt_discardExact 1 s4)
      intro x s5 h5
      apply extAt_pbind (extAt_readCString s5)
      intro x s6 h6
      apply extAt_pbind (extAt_readCString s6)
      intro x s7 h7
      apply extAt_pbind (extAt_readCString s7)
      intro x s8 h8
      apply extAt_pbind (extAt_discardExact 4 s8)
      intro x s9 h9
      apply extAt_pbind (extAt_readEntriesMeta s9)
      intro meta s10 h10
      exact extAt_readBodyP meta s10
    · rw [if_neg hv]; exact extAt_perr _ s2
  · rw [if_neg hh]; exact extAt_perr _ s1

/-- A successful `read` is unchanged by appending arbitrary bytes: the
decoder consumes the stream only through the trailing marker. -/
theorem read_extend {s : List UInt8} {v : List Entry} (u : List UInt8)
    (h : read s = .ok v) : read (s ++ u) = .ok v := by
  unfold read at h ⊢
  cases hp : readP s with
  | error e => rw [hp] at h; exact absurd h (by simp)
  | ok p =>
    obtain ⟨es, rest⟩ := p
    rw [hp] at h
    simp only [Except.ok.injEq] at h
    subst h
    rw [extAt_readP s es rest u hp]

/-! ## Truncation: cutting a stream short fails with an end-of-stream error -/

/-- The errors end-of-stream can cause: a short `read_exact`-style read
(`ErrorKind::UnexpectedEof`), or a string scan running off the stream
(`MissingNullTerminator`). -/
def EofLike (e : GmaError) : Prop :=
  e = .Io .unexpectedEof ∨ e = .MissingNullTerminator

/-- Truncation behaviour of `f` at an input `r` it parses successfully,
consuming `c = r.length - rest.length` bytes: any truncation inside the
consumed region fails with an error satisfying `P`, and any truncation after
it leaves the result unchanged (with the leftover itself truncated). -/
def TruncAt (P : GmaError → Prop) {α : Type} (f : Phase α)
    (r : List UInt8) : Prop :=
  ∀ a rest, f r = .ok (a, rest) →
    rest.length ≤ r.length ∧
    ∀ j, j < r.length →
      (j < r.length - rest.length → ∃ e, f (r.take j) = .error e ∧ P e) ∧
      (r.length - rest.length ≤ j →
        f (r.take j) = .ok (a, rest.take (j - (r.length - rest.length))))

theorem truncAt_congr {P : GmaError → Prop} {α : Type} {f f' : Phase α}
    (h : ∀ s, f s = f' s) (r : List UInt8) (hf : TruncAt P f r) :
    TruncAt P f' r := by
  intro a rest hok
  rw [← h r] at hok
  obtain ⟨hle, hj⟩ := hf a rest hok
  refine ⟨hle, fun j hjr => ?_⟩
  obtain ⟨h1, h2⟩ := hj j hjr
  constructor
  · intro hc
    obtain ⟨e, he, hP⟩ := h1 hc
    exact ⟨e, by rw [← h (r.take j)]; exact he, hP⟩
  · intro hc
    rw [← h (r.take j)]
    exact h2 hc

theorem truncAt_mono {P Q : GmaError → Prop} {α : Type} {f : Phase α}
    {r : List UInt8} (hPQ : ∀ e, P e → Q e) (hf : TruncAt P f r) :
    TruncAt Q f r := by
  intro a rest hok
  obtain ⟨hle, hj⟩ := hf a rest hok
  refine ⟨hle, fun j hjr => ?_⟩
  obtain ⟨h1, h2⟩ := hj j hjr
  exact ⟨fun hc => by obtain ⟨e, he, hP⟩ := h1 hc; exact ⟨e, he, hPQ e hP⟩, h2⟩

theorem truncAt_pok {P : GmaError → Prop} {α : Type} (a : α)
    (r : List UInt8) : TruncAt P (pok a) r := by
  intro b rest hok
  simp only [pok, Except.ok.injEq, Prod.mk.injEq] at hok
  obtain ⟨h1, h2⟩ := hok
  subst h1 h2
  refine ⟨le_rfl, fun j hjr => ⟨fun hc => by omega, fun hc => ?_⟩⟩
  simp [pok]

theorem truncAt_perr {P : GmaError → Prop} {α : Type} (e : GmaError)
    (r : List UInt8) : TruncAt P (perr (α := α) e) r := by
  intro b rest hok
  simp [perr] at hok

theorem truncAt_pbind {P : GmaError → Prop} {α β : Type} {f : Phase α}
    {g : α → Phase β} {r : List UInt8} (hf : TruncAt P f r)
    (hg : ∀ a r1, f r = .ok (a, r1) → TruncAt P (g a) r1) :
    TruncAt P (pbind f g) r := by
  intro b rest hok
  unfold pbind at hok
  cases hfr : f r with
  | error e => rw [hfr] at hok; exact absurd hok (by simp)
  | ok p =>
    obtain ⟨a, r1⟩ := p
    rw [hfr] at hok
    obtain ⟨hle1, hj1⟩ := hf a r1 hfr
    obtain ⟨hle2, hj2⟩ := hg a r1 hfr b rest hok
    refine ⟨by omega, fun j hjr => ?_⟩
    constructor
    · intro hc
      by_cases hc1 : j < r.length - r1.length
      · obtain ⟨e, he, hP⟩ := (hj1 j hjr).1 hc1
        exact ⟨e, pbind_apply_error he, hP⟩
      · push_neg at hc1
        have hok' := (hj1 j hjr).2 hc1
        have hlt : j - (r.length - r1.length) < r1.length := by omega
        obtain ⟨e, he, hP⟩ := (hj2 _ hlt).1 (by omega)
        exact ⟨e, by rw [pbind_apply_ok hok']; exact he, hP⟩
    · intro hc
      have hc1 : r.length - r1.length ≤ j := by omega
      have hok' := (hj1 j hjr).2 hc1
      have hlt : j - (r.length - r1.length) < r1.length := by omega
      have h2 := (hj2 _ hlt).2 (by omega)
      rw [pbind_apply_ok hok', h2]
      have harith : j - (r.length - r1.length) - (r1.length - rest.length) =
          j - (r.length - rest.length) := by omega
      rw [harith]

theorem truncAt_readExact (n : Nat) (r : List UInt8) :
    TruncAt (fun e => e = .Io .unexpectedEof) (readExact n) r := by
  intro a rest hok
  obtain ⟨hle, ha, hr⟩ := readExact_ok hok
  subst ha hr
  refine ⟨by simp, fun j hjr => ?_⟩
  have hc : r.length - (r.drop n).length = n := by simp; omega
  rw [hc]
  constructor
  · intro hjn
    refine ⟨.Io .unexpectedEof, ?_, rfl⟩
    simp only [readExact]
    rw [if_neg (by simp; omega)]
  · intro hnj
    simp only [readExact]
    rw [if_pos (by simp; omega), List.take_take, Nat.min_eq_left hnj,
      List.drop_take]

theorem readU32_eq_pbind (s : List UInt8) :
    readU32 s = pbind (readExact 4) (fun b => pok (leVal b)) s := by
  unfold readU32 pbind pok
  cases hr : readExact 4 s with
  | error e => rfl
  | ok p => obtain ⟨b, s1⟩ := p; rfl

theorem readI8_eq_pbind (s : List UInt8) :
    readI8 s = pbind (readExact 1) (fun b => pok (i8OfByte b.headI)) s := by
  unfold readI8 pbind pok
  cases hr : readExact 1 s with
  | error e => rfl
  | ok p => obtain ⟨b, s1⟩ := p; rfl

theorem readI64_eq_pbind (s : List UInt8) :
    readI64 s = pbind (readExact 8) (fun b => pok (if leVal b < 2 ^ 63
      then (leVal b : Int) else (leVal b : Int) - 2 ^ 64)) s := by
  unfold readI64 pbind pok
  cases hr : readExact 8 s with
  | error e => rfl
  | ok p => obtain ⟨b, s1⟩ := p; rfl

theorem discardExact_eq_pbind (n : Nat) (s : List UInt8) :
    discardExact n s = pbind (readExact n) (fun _ => pok ()) s := by
  unfold discardExact pbind pok
  cases hr : readExact n s with
  | error e => rfl
  | ok p => obtain ⟨b, s1⟩ := p; rfl

theorem truncAt_readU32 (r : List UInt8) :
    TruncAt (fun e => e = .Io .unexpectedEof) readU32 r :=
  truncAt_congr (fun s => (readU32_eq_pbind s).symm) r
    (truncAt_pbind (truncAt_readExact 4 r) fun _ r1 _ => truncAt_pok _ r1)

theorem truncAt_readI8 (r : List UInt8) :
    TruncAt (fun e => e = .Io .unexpectedEof) readI8 r :=
  truncAt_congr (fun s => (readI8_eq_pbind s).symm) r
    (truncAt_pbind (truncAt_readExact 1 r) fun _ r1 _ => truncAt_pok _ r1)

theorem truncAt_readI64 (r : List UInt8) :
    TruncAt (fun e => e = .Io .unexpectedEof) readI64 r :=
  truncAt_congr (fun s => (readI64_eq_pbind s).symm) r
    (truncAt_pbind (truncAt_readExact 8 r) fun _ r1 _ => truncAt_pok _ r1)

theorem truncAt_discardExact (n : Nat) (r : List UInt8) :
    TruncAt (fun e => e = .Io .unexpectedEof) (discardExact n) r :=
  truncAt_congr (fun s => (discardExact_eq_pbind n s).symm) r
    (truncAt_pbind (truncAt_readExact n r) fun _ r1 _ => truncAt_pok _ r1)

theorem truncAt_readCString (r : List UInt8) :
    TruncAt (fun e => e = .MissingNullTerminator) readCString r := by
  intro a rest hok
  obtain ⟨pre, heq, hmem, hnm⟩ := readCString_ok hok
  subst heq hnm
  refine ⟨by simp; omega, fun j hjr => ?_⟩
  have hc : (pre ++ 0 :: rest).length - rest.length = pre.length + 1 := by
    simp
    omega
  rw [hc]
  constructor
  · intro hj
    have hjp : j ≤ pre.length := by omega
    have htake : (pre ++ 0 :: rest).take j = pre.take j :=
      List.take_append_of_le_length hjp
    rw [htake]
    exact ⟨.MissingNullTerminator,
      readCString_no_null fun hm => hmem (List.take_subset _ _ hm), rfl⟩
  · intro hj
    obtain ⟨m, hm⟩ : ∃ m, j - pre.length = m + 1 := ⟨j - pre.length - 1, by omega⟩
    have htake : (pre ++ 0 :: rest).take j = pre ++ 0 :: rest.take m := by
      rw [List.take_append_eq_append_take,
        List.take_of_length_le (by omega), hm, List.take_succ_cons]
    rw [htake, readCString_append hmem]
    have : j - (pre.length + 1) = m := by omega
    rw [this]

theorem truncAt_readEntriesMeta : ∀ r : List UInt8,
    TruncAt EofLike readEntriesMeta r := by
  have main : ∀ n : Nat, ∀ r : List UInt8, r.length ≤ n →
      TruncAt EofLike readEntriesMeta r := by
    intro n
    induction n with
    | zero =>
      intro r hr
      apply truncAt_congr (fun s => (readEntriesMeta_eq s).symm)
      apply truncAt_pbind (truncAt_mono (fun e h => Or.inl h)
        (truncAt_readU32 r))
      intro idx r1 hu
      exact absurd (readU32_len hu) (by omega)
    | succ n ih =>
      intro r hr
      apply truncAt_congr (fun s => (readEntriesMeta_eq s).symm)
      apply truncAt_pbind (truncAt_mono (fun e h => Or.inl h)
        (truncAt_readU32 r))
      intro idx r1 hu
      by_cases hidx : idx = 0
      · rw [if_pos hidx]; exact truncAt_pok [] r1
      · rw [if_neg hidx]
        apply truncAt_pbind (truncAt_mono (fun e h => Or.inr h)
          (truncAt_readCString r1))
        intro nm r2 hcs
        apply truncAt_pbind (truncAt_mono (fun e h => Or.inl h)
          (truncAt_readI64 r2))
        intro sz r3 hi
        by_cases hsz : sz < 0
        · rw [if_pos hsz]; exact truncAt_perr _ r3
        · rw [if_neg hsz]
          apply truncAt_pbind (truncAt_mono (fun e h => Or.inl h)
            (truncAt_discardExact 4 r3))
          intro x r4 hdd
          apply truncAt_pbind
          · apply ih
            have l1 := readU32_len hu
            have l2 := readCString_len hcs
            have l3 := readI64_len hi
            have l4 := discardExact_len hdd
            omega
          · intro m r5 hm
            exact truncAt_pok _ r5
  intro r
  exact main r.length r le_rfl

theorem truncAt_readContents : ∀ (meta : List (List UInt8 × Nat))
    (r : List UInt8),
    TruncAt (fun e => e = .Io .unexpectedEof) (readContents meta) r := by
  intro meta
  induction meta with
  | nil => intro r; exact truncAt_pok [] r
  | cons p meta ih =>
    intro r
    obtain ⟨nm, sz⟩ := p
    apply truncAt_pbind (truncAt_readExact sz r)
    intro content r1 hc
    apply truncAt_pbind (ih r1)
    intro es r2 hes
    exact truncAt_pok _ r2

theorem truncAt_readBodyP (meta : List (List UInt8 × Nat)) (r : List UInt8) :
    TruncAt (fun e => e = .Io .unexpectedEof) (readBodyP meta) r := by
  apply truncAt_pbind (truncAt_readContents meta r)
  intro entries r1 hc
  apply truncAt_pbind (truncAt_readU32 r1)
  intro tr r2 hu
  by_cases htr : tr = 0
  · rw [if_pos htr]; exact truncAt_pok _ r2
  · rw [if_neg htr]; exact truncAt_perr _ r2

theorem truncAt_readP (s : List UInt8) : TruncAt EofLike readP s := by
  apply truncAt_pbind (truncAt_mono (fun e h => Or.inl h)
    (truncAt_readExact 4 s))
  intro hdr s1 h1
  by_cases hh : hdr = HEADER
  · rw [if_pos hh]
    apply truncAt_pbind (truncAt_mono (fun e h => Or.inl h)
      (truncAt_readI8 s1))
    intro v s2 h2
    by_cases hv : v = VERSION
    · rw [if_pos hv]
      apply truncAt_pbind (truncAt_mono (fun e h => Or.inl h)
        (truncAt_discardExact 8 s2))
      intro x s3 h3
      apply truncAt_pbind (truncAt_mono (fun e h => Or.inl h)
        (truncAt_discardExact 8 s3))
      intro x s4 h4
      apply truncAt_pbind (truncAt_mono (fun e h => Or.inl h)
        (truncAt_discardExact 1 s4))
      intro x s5 h5
      apply truncAt_pbind (truncAt_mono (fun e h => Or.inr h)
        (truncAt_readCString s5))
      intro x s6 h6
      apply truncAt_pbind (truncAt_mono (fun e h => Or.inr h)
        (truncAt_readCString s6))
      intro x s7 h7
      apply truncAt_pbind (truncAt_mono (fun e h => Or.inr h)
        (truncAt_readCString s7))
      intro x s8 h8
      apply truncAt_pbind (truncAt_mono (fun e h => Or.inl h)
        (truncAt_discardExact 4 s8))
      intro x s9 h9
      apply truncAt_pbind (truncAt_readEntriesMeta s9)
      intro meta s10 h10
      exact truncAt_mono (fun e h => Or.inl h) (truncAt_readBodyP meta s10)
    · rw [if_neg hv]; exact truncAt_perr _ s2
  · rw [if_neg hh]; exact truncAt_perr _ s1

/-! ## Further composition lemmas -/

/-- Reading metadata past well-formed records: the records are accumulated
and whatever the loop does on the remaining stream follows. -/
theorem readEntriesMeta_skip : ∀ (es : List Entry) (i : Nat)
    (tail : List UInt8), (∀ e ∈ es, 0 ∉ e.name) →
    (∀ e ∈ es, e.content.length < 2 ^ 63) → i + es.length < 2 ^ 32 →
    readEntriesMeta (metaBytes i es ++ tail) =
      (match readEntriesMeta tail with
        | .ok (m, r) =>
          .ok ((es.map fun e => (utf8Lossy e.name, e.content.length)) ++ m, r)
        | .error e => .error e) := by
  intro es
  induction es with
  | nil =>
    intro i tail _ _ _
    simp only [metaBytes, List.nil_append, List.map_nil]
    cases h : readEntriesMeta tail with
    | error e => rfl
    | ok p => obtain ⟨m, r⟩ := p; simp
  | cons e es ih =>
    intro i tail hn hsz hlen
    have hlen' : i + es.length + 1 < 2 ^ 32 := by
      simp only [List.length_cons] at hlen
      omega
    rw [readEntriesMeta_eq]
    have hassoc : metaBytes i (e :: es) ++ tail =
        u32le (i + 1) ++ (e.name ++ 0 ::
          (i64le (e.content.length : Int) ++ (u32le 0 ++
            (metaBytes (i + 1) es ++ tail)))) := by
      simp [metaBytes, List.append_assoc]
    rw [hassoc]
    rw [pbind_apply_ok (readU32_append_small (n := i + 1) (by omega) _),
      if_neg (by omega : ¬ (i + 1 = 0)),
      pbind_apply_ok (readCString_append (hn e (by simp)) _)]
    have hcl : (e.content.length : Int) < 2 ^ 63 := by
      have := hsz e (by simp)
      exact_mod_cast this
    have hnn : (0 : Int) ≤ (e.content.length : Int) := Int.natCast_nonneg _
    rw [pbind_apply_ok (readI64_append (e.content.length : Int) (by omega) hcl _),
      if_neg (by omega : ¬ ((e.content.length : Int) < 0)),
      pbind_apply_ok (discardExact_append (n := 4) (u32le 0) _ (length_u32le 0))]
    have hih := ih (i + 1) tail (fun x hx => hn x (by simp [hx]))
      (fun x hx => hsz x (by simp [hx])) (by omega)
    cases h : readEntriesMeta tail with
    | error e2 =>
      simp only [h] at hih
      rw [pbind_apply_error hih]
    | ok p =>
      obtain ⟨m, r⟩ := p
      simp only [h] at hih
      rw [pbind_apply_ok hih]
      simp [pok]

/-- The content-and-trailing phase succeeds on exactly the encoded contents
followed by the zero marker. -/
theorem readBodyP_gma (es : List Entry) :
    readBodyP (es.map fun e => (utf8Lossy e.name, e.content.length))
      (contentsBytes es ++ u32le 0) =
      .ok (es.map fun e => ⟨utf8Lossy e.name, e.content, e.content.length⟩,
        []) := by
  unfold readBodyP
  rw [pbind_apply_ok (readContents_append es (u32le 0))]
  have hu : readU32 (u32le 0) = .ok (0, []) := by
    have := readU32_append_small (n := 0) (by norm_num) []
    simpa using this
  rw [pbind_apply_ok hu]
  simp [pok]

/-- Truncating an encoded stream anywhere in the content phase or the
trailing marker leaves only `read_exact`-style reads to fail: the error is
exactly `ErrorKind::UnexpectedEof`. -/
theorem readP_trunc_content (b : Builder) (t : Nat) (hw : b.wfStrings)
    (h32 : b.entries.length < 2 ^ 32)
    (h63 : ∀ e ∈ b.entries, e.content.length < 2 ^ 63) (k : Nat)
    (hk1 : (gmaPre b t ++ metaBytes 0 b.entries ++ u32le 0).length ≤ k)
    (hk : k < (gmaBytes b t).length) :
    readP ((gmaBytes b t).take k) = .error (.Io .unexpectedEof) := by
  obtain ⟨hn, hd, ha, he⟩ := hw
  have hsplit : (gmaBytes b t).take k =
      (gmaPre b t ++ metaBytes 0 b.entries ++ u32le 0) ++
        (contentsBytes b.entries ++ u32le 0).take
          (k - (gmaPre b t ++ metaBytes 0 b.entries ++ u32le 0).length) := by
    rw [gmaBytes]
    rw [show gmaPre b t ++ metaBytes 0 b.entries ++ u32le 0 ++
        contentsBytes b.entries ++ u32le 0 =
        (gmaPre b t ++ metaBytes 0 b.entries ++ u32le 0) ++
          (contentsBytes b.entries ++ u32le 0) by
      simp [List.append_assoc]]
    rw [List.take_append_eq_append_take, List.take_of_length_le hk1]
  rw [hsplit]
  have hshape : (gmaPre b t ++ metaBytes 0 b.entries ++ u32le 0) ++
      (contentsBytes b.entries ++ u32le 0).take
        (k - (gmaPre b t ++ metaBytes 0 b.entries ++ u32le 0).length) =
      anyPre (i64le b.steam_id64) (u64le t) 0 b.name b.description b.author
        (i32le 1) ++
        (metaBytes 0 b.entries ++ u32le 0 ++
          ((contentsBytes b.entries ++ u32le 0).take
            (k - (gmaPre b t ++ metaBytes 0 b.entries ++ u32le 0).length))) := by
    rw [gmaPre_eq_anyPre]
    simp [List.append_assoc]
  rw [hshape, readP_anyPre _ _ _ _ _ _ _ _ (length_i64le _) (length_u64le _)
    (length_i32le _) hn hd ha]
  unfold readTailP
  rw [pbind_apply_ok (readEntriesMeta_metaBytes b.entries 0 _ he h63
    (by omega))]
  have hbody := readBodyP_gma b.entries
  obtain ⟨-, hj⟩ := truncAt_readBodyP
    (b.entries.map fun e => (utf8Lossy e.name, e.content.length))
    (contentsBytes b.entries ++ u32le 0) _ _ hbody
  have hklt : k - (gmaPre b t ++ metaBytes 0 b.entries ++ u32le 0).length <
      (contentsBytes b.entries ++ u32le 0).length := by
    have hlen1 : (gmaBytes b t).length =
        (gmaPre b t ++ metaBytes 0 b.entries ++ u32le 0).length +
          (contentsBytes b.entries ++ u32le 0).length := by
      rw [show gmaBytes b t =
          (gmaPre b t ++ metaBytes 0 b.entries ++ u32le 0) ++
            (contentsBytes b.entries ++ u32le 0) from by
        simp [gmaBytes, List.append_assoc], List.length_append]
    omega
  obtain ⟨e, herr, heIo⟩ := (hj _ hklt).1
    (by simp only [List.length_nil, Nat.sub_zero]; exact hklt)
  rw [herr, heIo]

/-! ## The decoded size always equals the content length -/

theorem pbind_ok_inv {α β : Type} {f : Phase α} {g : α → Phase β}
    {s : List UInt8} {b : β} {rest : List UInt8}
    (h : pbind f g s = .ok (b, rest)) :
    ∃ a s1, f s = .ok (a, s1) ∧ g a s1 = .ok (b, rest) := by
  unfold pbind at h
  cases hfr : f s with
  | error e => rw [hfr] at h; exact absurd h (by simp)
  | ok p =>
    obtain ⟨a, s1⟩ := p
    rw [hfr] at h
    exact ⟨a, s1, rfl, h⟩

theorem readContents_sizes : ∀ (meta : List (List UInt8 × Nat))
    (r : List UInt8) (es : List Entry) (r1 : List UInt8),
    readContents meta r = .ok (es, r1) →
    ∀ e ∈ es, e.size = e.content.length := by
  intro meta
  induction meta with
  | nil =>
    intro r es r1 h e he
    simp only [readContents, pok, Except.ok.injEq, Prod.mk.injEq] at h
    obtain ⟨h1, -⟩ := h
    subst h1
    simp at he
  | cons p meta ih =>
    intro r es r1 h e he
    obtain ⟨nm, sz⟩ := p
    obtain ⟨content, r2, hc, h2⟩ := pbind_ok_inv h
    obtain ⟨es2, r3, hes, h3⟩ := pbind_ok_inv h2
    simp only [pok, Except.ok.injEq, Prod.mk.injEq] at h3
    obtain ⟨h4, -⟩ := h3
    subst h4
    rcases List.mem_cons.mp he with h5 | h5
    · subst h5
      obtain ⟨hle, hc1, -⟩ := readExact_ok hc
      subst hc1
      simp [List.length_take]
      omega
    · exact ih r2 es2 r3 hes e h5

theorem readTailP_sizes {r : List UInt8} {es : List Entry}
    {r1 : List UInt8} (h : readTailP r = .ok (es, r1)) :
    ∀ e ∈ es, e.size = e.content.length := by
  unfold readTailP at h
  obtain ⟨meta, s1, -, h2⟩ := pbind_ok_inv h
  unfold readBodyP at h2
  obtain ⟨entries, s2, hc, h3⟩ := pbind_ok_inv h2
  obtain ⟨tr, s3, -, h4⟩ := pbind_ok_inv h3
  by_cases htr : tr = 0
  · rw [if_pos htr] at h4
    simp only [pok, Except.ok.injEq, Prod.mk.injEq] at h4
    obtain ⟨h5, -⟩ := h4
    subst h5
    exact readContents_sizes meta s1 _ s2 hc
  · rw [if_neg htr] at h4
    exact absurd h4 (by simp [perr])

theorem readP_sizes {s : List UInt8} {es : List Entry} {r : List UInt8}
    (h : readP s = .ok (es, r)) : ∀ e ∈ es, e.size = e.content.length := by
  unfold readP at h
  obtain ⟨hdr, s1, -, h1⟩ := pbind_ok_inv h
  by_cases hh : hdr = HEADER
  · rw [if_pos hh] at h1
    obtain ⟨v, s2, -, h2⟩ := pbind_ok_inv h1
    by_cases hv : v = VERSION
    · rw [if_pos hv] at h2
      obtain ⟨x3, s3, -, h3⟩ := pbind_ok_inv h2
      obtain ⟨x4, s4, -, h4⟩ := pbind_ok_inv h3
      obtain ⟨x5, s5, -, h5⟩ := pbind_ok_inv h4
      obtain ⟨x6, s6, -, h6⟩ := pbind_ok_inv h5
      obtain ⟨x7, s7, -, h7⟩ := pbind_ok_inv h6
      obtain ⟨x8, s8, -, h8⟩ := pbind_ok_inv h7
      obtain ⟨x9, s9, -, h9⟩ := pbind_ok_inv h8
      exact readTailP_sizes h9
    · rw [if_neg hv] at h2
      exact absurd h2 (by simp [perr])
  · rw [if_neg hh] at h1
    exact absurd h1 (by simp [perr])

theorem read_sizes {s : List UInt8} {es : List Entry}
    (h : read s = .ok es) : ∀ e ∈ es, e.size = e.content.length := by
  unfold read at h
  cases hp : readP s with
  | error e => rw [hp] at h; exact absurd h (by simp)
  | ok p =>
    obtain ⟨es2, rest⟩ := p
    rw [hp] at h
    simp only [Except.ok.injEq] at h
    subst h
    exact readP_sizes hp

/-! ## The claims -/

/-- C4: reading a null-terminated string field scans byte-by-byte until the
first `0x00`, which is excluded from the result; the preceding bytes are
UTF-8 decoded with invalid sequences replaced (a total operation, never a
hard failure — witnessed concretely by the invalid byte `0xFF` decoding to
U+FFFD); an immediate terminator yields the empty string; end-of-stream
before any `0x00` (including an empty stream) yields
`MissingNullTerminator`. -/
theorem claim_C4_cstring_rule :
    (∀ pre post : List UInt8, 0 ∉ pre →
      readCString (pre ++ 0 :: post) = .ok (utf8Lossy pre, post)) ∧
    (∀ s : List UInt8, 0 ∉ s →
      readCString s = .error .MissingNullTerminator) ∧
    (∀ post : List UInt8, readCString (0 :: post) = .ok ([], post)) ∧
    readCString [255, 65, 0] = .ok ([239, 191, 189, 65], []) := by
  refine ⟨fun pre post h => readCString_append h post,
    fun s h => readCString_no_null h, fun post => ?_, by decide⟩
  have h := @readCString_append [] (by simp) post
  simpa using h

theorem claim_C4_witness :
    readCString ([7, 8] ++ 0 :: [9]) = .ok (utf8Lossy [7, 8], [9]) ∧
    readCString [7, 8] = .error .MissingNullTerminator ∧
    readCString (0 :: [5]) = .ok ([], [5]) :=
  ⟨claim_C4_cstring_rule.1 [7, 8] [9] (by decide),
    claim_C4_cstring_rule.2.1 [7, 8] (by decide),
    claim_C4_cstring_rule.2.2.1 [5]⟩

/-- C7: on a stream of at least 5 bytes, a first-4-byte mismatch with the
ASCII bytes of "GMAD" yields `InvalidHeader` carrying the actual 4 bytes,
whatever follows; with the magic intact, a 5th byte whose signed 8-bit value
is not 3 yields `InvalidVersion` carrying that value. -/
theorem claim_C7_header_version (h : List UInt8) (hlen : h.length = 4)
    (b4 : UInt8) (rest : List UInt8) :
    (h ≠ HEADER → read (h ++ b4 :: rest) = .error (.InvalidHeader h)) ∧
    (h = HEADER → i8OfByte b4 ≠ 3 →
      read (h ++ b4 :: rest) = .error (.InvalidVersion (i8OfByte b4))) := by
  constructor
  · intro hne
    unfold read readP
    rw [pbind_apply_ok (readExact_append_of_length (n := 4) h _ hlen),
      if_neg hne]
    simp [perr]
  · intro heq hv
    subst heq
    unfold read readP
    rw [pbind_apply_ok (readExact_append_of_length (n := 4) HEADER _ rfl),
      if_pos rfl, pbind_apply_ok (readI8_cons b4 rest)]
    simp only [VERSION]
    rw [if_neg hv]
    simp [perr]

theorem claim_C7_witness :
    read ([71, 77, 65, 67] ++ 3 :: []) =
      .error (.InvalidHeader [71, 77, 65, 67]) ∧
    read (HEADER ++ 4 :: []) = .error (.InvalidVersion (i8OfByte 4)) :=
  ⟨(claim_C7_header_version [71, 77, 65, 67] (by decide) 3 []).1 (by decide),
    (claim_C7_header_version HEADER rfl 4 []).2 rfl (by decide)⟩

/-- C10: a stream on which `read` succeeds still succeeds, with the same
result, after appending arbitrary bytes: the decoder consumes the stream
only up to and including the trailing 4-byte marker and never looks past
it. -/
theorem claim_C10_ignores_suffix (s u : List UInt8) (v : List Entry)
    (h : read s = .ok v) : read (s ++ u) = .ok v :=
  read_extend u h

theorem claim_C10_witness :
    read (gmaBytes (Builder.new [97] 5) 0) = .ok [] ∧
    read (gmaBytes (Builder.new [97] 5) 0 ++ [9, 9, 9]) = .ok [] := by
  have h : read (gmaBytes (Builder.new [97] 5) 0) = .ok [] := by decide
  exact ⟨h, claim_C10_ignores_suffix _ [9, 9, 9] [] h⟩

/-- C6: a well-formed stream whose metadata loop reaches a record with a
negative declared size fails with `SizeOutOfRange` carrying that size; the
bytes after the size field — in particular all content bytes — are never
examined (the result is the same for every `rest`, including none at
all). -/
theorem claim_C6_negative_size (id8 ts8 : List UInt8) (fl : UInt8)
    (n1 n2 n3 v4 : List UInt8) (h8 : id8.length = 8) (h8' : ts8.length = 8)
    (h4 : v4.length = 4) (hn1 : 0 ∉ n1) (hn2 : 0 ∉ n2) (hn3 : 0 ∉ n3)
    (es : List Entry) (hen : ∀ e ∈ es, 0 ∉ e.name)
    (hsz : ∀ e ∈ es, e.content.length < 2 ^ 63) (hlen : es.length < 2 ^ 32)
    (idx : Nat) (hidx : idx % 2 ^ 32 ≠ 0) (nm : List UInt8) (hnm : 0 ∉ nm)
    (sz : Int) (hlo : -2 ^ 63 ≤ sz) (hneg : sz < 0) (rest : List UInt8) :
    read (anyPre id8 ts8 fl n1 n2 n3 v4 ++
      (metaBytes 0 es ++ (u32le idx ++ (nm ++ 0 :: (i64le sz ++ rest))))) =
      .error (.SizeOutOfRange sz) := by
  unfold read
  rw [readP_anyPre _ _ _ _ _ _ _ _ h8 h8' h4 hn1 hn2 hn3]
  unfold readTailP
  have htail : readEntriesMeta (u32le idx ++ (nm ++ 0 :: (i64le sz ++ rest))) =
      .error (.SizeOutOfRange sz) := by
    rw [readEntriesMeta_eq, pbind_apply_ok (readU32_append idx _),
      if_neg hidx, pbind_apply_ok (readCString_append hnm _),
      pbind_apply_ok (readI64_append sz hlo (by omega) _), if_pos hneg]
    rfl
  have hskip := readEntriesMeta_skip es 0
    (u32le idx ++ (nm ++ 0 :: (i64le sz ++ rest))) hen hsz (by omega)
  simp only [htail] at hskip
  rw [pbind_apply_error hskip]

theorem claim_C6_witness :
    read (anyPre (u64le 0) (u64le 0) 0 [97] [] [98] (u32le 1) ++
      (metaBytes 0 [] ++ (u32le 1 ++ ([102] ++ 0 :: (i64le (-1) ++ []))))) =
      .error (.SizeOutOfRange (-1)) :=
  claim_C6_negative_size (u64le 0) (u64le 0) 0 [97] [] [98] (u32le 1)
    (by decide) (by decide) (by decide) (by decide) (by decide) (by decide)
    [] (by decide) (by decide) (by decide) 1 (by decide) [102] (by decide)
    (-1) (by decide) (by decide) []

/-- C5: `write_to` emits, after the preamble, the metadata records
(`metaBytes 0 es`: one record per entry, carrying the 1-based sequential
index `i + 1` for the entry at offset `i` and a checksum of `0`), then a
zero `u32` terminator, then every entry's raw content in append order, then
a trailing zero `u32`; a builder with no entries emits the two zero `u32`s
right after the preamble, and that output decodes to zero entries. -/
theorem claim_C5_wire_layout (b : Builder) (t : Nat) (hw : b.wfStrings) :
    b.write_to t = .ok (gmaPre b t ++ metaBytes 0 b.entries ++ u32le 0 ++
      contentsBytes b.entries ++ u32le 0) ∧
    (b.entries = [] →
      b.write_to t = .ok (gmaPre b t ++ u32le 0 ++ u32le 0) ∧
      read (gmaPre b t ++ u32le 0 ++ u32le 0) = .ok []) := by
  have h1 := write_to_ok b t hw
  refine ⟨h1, fun hnil => ?_⟩
  have h2 : gmaBytes b t = gmaPre b t ++ u32le 0 ++ u32le 0 := by
    rw [gmaBytes, hnil]
    simp [metaBytes, contentsBytes]
  refine ⟨by rw [← h2]; exact h1, ?_⟩
  have h3 := read_gmaBytes b t hw (by simp [hnil]) (by simp [hnil])
  rw [← h2, h3, hnil]
  simp

theorem claim_C5_witness :
    ((Builder.new [97] 5).file_from_bytes [102] [1, 2]).write_to 0 =
      .ok (gmaPre ((Builder.new [97] 5).file_from_bytes [102] [1, 2]) 0 ++
        metaBytes 0 ((Builder.new [97] 5).file_from_bytes [102] [1, 2]).entries ++
        u32le 0 ++
        contentsBytes ((Builder.new [97] 5).file_from_bytes [102] [1, 2]).entries ++
        u32le 0) ∧
    (Builder.new [97] 5).write_to 0 =
      .ok (gmaPre (Builder.new [97] 5) 0 ++ u32le 0 ++ u32le 0) ∧
    read (gmaPre (Builder.new [97] 5) 0 ++ u32le 0 ++ u32le 0) = .ok [] :=
  ⟨(claim_C5_wire_layout ((Builder.new [97] 5).file_from_bytes [102] [1, 2]) 0
      (by decide)).1,
    ((claim_C5_wire_layout (Builder.new [97] 5) 0 (by decide)).2 rfl).1,
    ((claim_C5_wire_layout (Builder.new [97] 5) 0 (by decide)).2 rfl).2⟩

/-- A sample archive used by several concrete witnesses: one entry named
`"f"` with three content bytes. -/
def sampleBuilder : Builder := (Builder.new [97] 5).file_from_bytes [102] [1, 2, 3]

/-- C1 as stated is refuted: the decoder discards the addon metadata, so the
decode of an encode cannot carry the original addon name — two builders
differing only in their addon name encode to different streams, yet those
streams decode to the very same result. -/
theorem claim_C1_counterexample :
    (Builder.new [97] 5).name ≠ (Builder.new [98] 5).name ∧
    (Builder.new [97] 5).write_to 0 = .ok (gmaBytes (Builder.new [97] 5) 0) ∧
    (Builder.new [98] 5).write_to 0 = .ok (gmaBytes (Builder.new [98] 5) 0) ∧
    gmaBytes (Builder.new [97] 5) 0 ≠ gmaBytes (Builder.new [98] 5) 0 ∧
    read (gmaBytes (Builder.new [97] 5) 0) =
      read (gmaBytes (Builder.new [98] 5) 0) := by decide

/-- C1 (amended): for a builder with null-free strings and arbitrary binary
contents, decoding the bytes produced by `write_to` succeeds and yields
exactly the entries — identical names (the hypothesis `utf8Lossy e.name =
e.name` expresses the Rust `String` type invariant that names are valid
UTF-8), identical contents, and identical count and order.  The addon name,
description and author are written to the stream but the decoder parses and
discards them instead of returning them. -/
theorem claim_C1_roundtrip_entries (b : Builder) (t : Nat) (hw : b.wfStrings)
    (h32 : b.entries.length < 2 ^ 32)
    (h63 : ∀ e ∈ b.entries, e.content.length < 2 ^ 63)
    (hutf : ∀ e ∈ b.entries, utf8Lossy e.name = e.name) :
    ∃ out es, b.write_to t = .ok out ∧ read out = .ok es ∧
      es.map Entry.name = b.entries.map Entry.name ∧
      es.map Entry.content = b.entries.map Entry.content ∧
      es.length = b.entries.length := by
  refine ⟨gmaBytes b t, _, write_to_ok b t hw, read_gmaBytes b t hw h32 h63,
    ?_, ?_, ?_⟩
  · rw [List.map_map]
    exact List.map_congr_left fun e he => hutf e he
  · rw [List.map_map]
    exact List.map_congr_left fun e he => rfl
  · rw [List.length_map]

theorem claim_C1_witness : ∃ out es,
    sampleBuilder.write_to 0 = .ok out ∧ read out = .ok es ∧
      es.map Entry.name = sampleBuilder.entries.map Entry.name ∧
      es.map Entry.content = sampleBuilder.entries.map Entry.content ∧
      es.length = sampleBuilder.entries.length :=
  claim_C1_roundtrip_entries sampleBuilder 0 (by decide) (by decide)
    (by decide) (by decide)

/-- C2 as stated is refuted: the owner identifier is consumed but *not*
stored in the result — two encodes that differ only in the owner identifier
yield different streams whose decodes are the identical value `.ok []`,
which carries no owner identifier and no addon strings. -/
theorem claim_C2_counterexample :
    (Builder.new [97] 5).steam_id64 ≠ (Builder.new [97] 9).steam_id64 ∧
    gmaBytes (Builder.new [97] 5) 0 ≠ gmaBytes (Builder.new [97] 9) 0 ∧
    read (gmaBytes (Builder.new [97] 5) 0) = .ok [] ∧
    read (gmaBytes (Builder.new [97] 9) 0) = .ok [] := by decide

/-- C2 (amended): a successful decode returns only the ordered sequence of
file entries; the addon name, description, author and the owner identifier
are consumed to keep the stream aligned but discarded — the result depends
only on the entries, not on any of those fields or the timestamp. -/
theorem claim_C2_metadata_discarded (b1 b2 : Builder) (t1 t2 : Nat)
    (hw1 : b1.wfStrings) (hw2 : b2.wfStrings)
    (hents : b1.entries = b2.entries) (h32 : b1.entries.length < 2 ^ 32)
    (h63 : ∀ e ∈ b1.entries, e.content.length < 2 ^ 63) :
    read (gmaBytes b1 t1) = read (gmaBytes b2 t2) ∧
    read (gmaBytes b1 t1) = .ok (b1.entries.map fun e =>
      ⟨utf8Lossy e.name, e.content, e.content.length⟩) := by
  have r1 := read_gmaBytes b1 t1 hw1 h32 h63
  have r2 := read_gmaBytes b2 t2 hw2 (hents ▸ h32) (hents ▸ h63)
  constructor
  · rw [r1, r2, hents]
  · exact r1

theorem claim_C2_witness :
    read (gmaBytes (Builder.new [97] 5) 0) =
      read (gmaBytes (Builder.new [98] 7) 3) ∧
    read (gmaBytes (Builder.new [97] 5) 0) = .ok [] :=
  claim_C2_metadata_discarded (Builder.new [97] 5) (Builder.new [98] 7) 0 3
    (by decide) (by decide) rfl (by decide) (by decide)

/-- C8: (1) after any successful decode, every entry's stored size equals
its content length (the decoder reads exactly the declared number of bytes);
(2) `file_from_bytes` stores a size equal to the length of the supplied
bytes; (3) `write_to` derives the written size from the content length, so
the decode of an encode recovers sizes equal to the content lengths even if
a hand-made entry carried a divergent `size` field. -/
theorem claim_C8_size_invariant :
    (∀ (s : List UInt8) (es : List Entry), read s = .ok es →
      ∀ e ∈ es, e.size = e.content.length) ∧
    (∀ (b : Builder) (nm bs : List UInt8),
      (b.file_from_bytes nm bs).entries = b.entries ++ [⟨nm, bs, bs.length⟩]) ∧
    (∀ (b : Builder) (t : Nat), b.wfStrings → b.entries.length < 2 ^ 32 →
      (∀ e ∈ b.entries, e.content.length < 2 ^ 63) →
      ∃ es, read (gmaBytes b t) = .ok es ∧
        es.map Entry.size = b.entries.map fun e => e.content.length) := by
  refine ⟨fun s es h => read_sizes h, fun b nm bs => rfl,
    fun b t hw h32 h63 => ⟨_, read_gmaBytes b t hw h32 h63, ?_⟩⟩
  rw [List.map_map]
  rfl

theorem claim_C8_witness :
    (∀ e ∈ [(⟨[102], [1, 2, 3], 3⟩ : Entry)], e.size = e.content.length) ∧
    ((Builder.new [97] 5).file_from_bytes [102] [1, 2]).entries =
      (Builder.new [97] 5).entries ++ [⟨[102], [1, 2], 2⟩] ∧
    ∃ es, read (gmaBytes sampleBuilder 0) = .ok es ∧
      es.map Entry.size = sampleBuilder.entries.map fun e =>
        e.content.length :=
  ⟨claim_C8_size_invariant.1 (gmaBytes sampleBuilder 0)
      [⟨[102], [1, 2, 3], 3⟩] (by decide),
    claim_C8_size_invariant.2.1 (Builder.new [97] 5) [102] [1, 2],
    claim_C8_size_invariant.2.2 sampleBuilder 0 (by decide) (by decide)
      (by decide)⟩

/-- C9: cutting an encoded stream short anywhere (at or after the 4-byte
header, strictly before its end) makes `read` fail with an end-of-stream
error — the `UnexpectedEof` I/O error from a short fixed-width or content
read, or `MissingNullTerminator` when the cut lands inside a string field
(the string scan running off the stream); `read` is a total function, so no
panic and, as proven, no silent success is possible.  In particular, at or
past the metadata terminator — where fewer content bytes remain than were
declared — the error is exactly the `UnexpectedEof` I/O error. -/
theorem claim_C9_truncation (b : Builder) (t : Nat) (hw : b.wfStrings)
    (h32 : b.entries.length < 2 ^ 32)
    (h63 : ∀ e ∈ b.entries, e.content.length < 2 ^ 63) (k : Nat)
    (_hk4 : 4 ≤ k) (hk : k < (gmaBytes b t).length) :
    ∃ e, read ((gmaBytes b t).take k) = .error e ∧
      (e = .Io .unexpectedEof ∨ e = .MissingNullTerminator) ∧
      ((gmaPre b t ++ metaBytes 0 b.entries ++ u32le 0).length ≤ k →
        e = .Io .unexpectedEof) := by
  have hok := readP_gmaBytes b t hw h32 h63
  obtain ⟨hle, hj⟩ := truncAt_readP (gmaBytes b t) _ _ hok
  obtain ⟨e, herr, hEof⟩ := (hj k hk).1
    (by simp only [List.length_nil, Nat.sub_zero]; exact hk)
  refine ⟨e, ?_, hEof, ?_⟩
  · unfold read
    rw [herr]
  · intro hc
    have h2 := readP_trunc_content b t hw h32 h63 k hc hk
    rw [herr] at h2
    simp only [Except.error.injEq] at h2
    exact h2

theorem claim_C9_witness : ∃ e,
    read ((gmaBytes sampleBuilder 0).take 10) = .error e ∧
      (e = .Io .unexpectedEof ∨ e = .MissingNullTerminator) ∧
      ((gmaPre sampleBuilder 0 ++ metaBytes 0 sampleBuilder.entries ++
        u32le 0).length ≤ 10 → e = .Io .unexpectedEof) :=
  claim_C9_truncation sampleBuilder 0 (by decide) (by decide) (by decide) 10
    (by decide) (by decide)

/-- C3 as stated is refuted: the check happens before any byte of the
*offending string*, not before any output byte at all.  With an addon name
long enough (8171 bytes; buffer capacity 8192) the `BufWriter` flushes
mid-encode, so when the null byte in the description is then discovered and
`write_to` fails with `InvalidInput`, the preamble bytes have already been
produced on the sink. -/
theorem claim_C3_counterexample :
    ((Builder.new (List.replicate 8171 97) 0).set_description [0]).write_to 0 =
      .error (.Io .invalidInput) ∧
    ∃ w', ((Builder.new (List.replicate 8171 97) 0).set_description
        [0]).writeToBW 0 = .error (.Io .invalidInput, w') ∧
      w'.sink ≠ [] := by
  have hname : (0 : UInt8) ∉ List.replicate 8171 (97 : UInt8) := by
    intro hm
    rw [List.mem_replicate] at hm
    exact absurd hm.2 (by decide)
  have hdesc : (0 : UInt8) ∈ ([0] : List UInt8) := by simp
  have hW5 : bwWrite (bwWrite (bwWrite (bwWrite (bwWrite ⟨[], []⟩
      HEADER) [3]) (i64le 0)) (u64le 0)) [0] =
      ⟨[], HEADER ++ [3] ++ i64le 0 ++ u64le 0 ++ [0]⟩ := by decide
  have hlen22 : (HEADER ++ [3] ++ i64le 0 ++ u64le 0 ++ [0] :
      List UInt8).length = 22 := by decide
  have h6a := bwWrite_spill [] (HEADER ++ [3] ++ i64le 0 ++ u64le 0 ++ [0])
    (List.replicate 8171 97)
    (by rw [List.length_replicate, hlen22, bwCap]; omega)
    (by rw [List.length_replicate, bwCap]; omega)
  have h6b := bwWrite_keep ([] ++ (HEADER ++ [3] ++ i64le 0 ++ u64le 0 ++ [0]))
    (List.replicate 8171 97) [0]
    (by rw [List.length_replicate, bwCap]
        simp only [List.length_cons, List.length_nil]
        omega)
    (by rw [bwCap]
        simp only [List.length_cons, List.length_nil]
        omega)
  have herr : ((Builder.new (List.replicate 8171 97) 0).set_description
      [0]).writeToBW 0 =
      .error (.Io .invalidInput,
        ⟨[] ++ (HEADER ++ [3] ++ i64le 0 ++ u64le 0 ++ [0]),
          List.replicate 8171 97 ++ [0]⟩) := by
    unfold Builder.writeToBW Builder.new Builder.set_description
    simp only [bwWCString_ok_eq hname, bwWCString_err hdesc, hW5, h6a, h6b]
  refine ⟨?_, ⟨_, herr, by simp [HEADER]⟩⟩
  unfold Builder.write_to
  rw [herr]

/-- C3 (amended): any embedded null byte in the addon name, description,
author, or an entry name makes `write_to` fail with the `InvalidInput` I/O
error class, and the failure occurs before any byte *of the offending
string* is handed to the writer: the bytes the writer holds at the failure
(sink and buffer together, `bwOut`) are exactly the serialization of the
fields preceding the first offending string.  Bytes of those earlier fields
may already have been flushed to the sink, as the counterexample shows. -/
theorem claim_C3_null_rejection (b : Builder) (t : Nat) :
    ((0 ∈ b.name ∨ 0 ∈ b.description ∨ 0 ∈ b.author ∨
        ∃ e ∈ b.entries, 0 ∈ e.name) →
      b.write_to t = .error (.Io .invalidInput)) ∧
    (0 ∈ b.name → ∃ w', b.writeToBW t = .error (.Io .invalidInput, w') ∧
      bwOut w' = HEADER ++ [3] ++ i64le b.steam_id64 ++ u64le t ++ [0]) ∧
    (0 ∉ b.name → 0 ∈ b.description →
      ∃ w', b.writeToBW t = .error (.Io .invalidInput, w') ∧
        bwOut w' = HEADER ++ [3] ++ i64le b.steam_id64 ++ u64le t ++ [0] ++
          b.name ++ [0]) ∧
    (0 ∉ b.name → 0 ∉ b.description → 0 ∈ b.author →
      ∃ w', b.writeToBW t = .error (.Io .invalidInput, w') ∧
        bwOut w' = HEADER ++ [3] ++ i64le b.steam_id64 ++ u64le t ++ [0] ++
          b.name ++ [0] ++ b.description ++ [0]) ∧
    (∀ (es1 : List Entry) (e : Entry) (es2 : List Entry),
      0 ∉ b.name → 0 ∉ b.description → 0 ∉ b.author →
      b.entries = es1 ++ e :: es2 → (∀ x ∈ es1, 0 ∉ x.name) → 0 ∈ e.name →
      ∃ w', b.writeToBW t = .error (.Io .invalidInput, w') ∧
        bwOut w' = gmaPre b t ++ metaBytes 0 es1 ++
          u32le (es1.length + 1)) :=
  ⟨write_to_err b t, writeToBW_err_name b t, writeToBW_err_description b t,
    writeToBW_err_author b t,
    fun es1 e es2 hn hd ha hs hc hm =>
      writeToBW_err_entry b t hn hd ha es1 e es2 hs hc hm⟩

theorem claim_C3_witness :
    ((Builder.new [97] 5).set_description [0]).write_to 0 =
      .error (.Io .invalidInput) ∧
    ∃ w', ((Builder.new [97] 5).set_description [0]).writeToBW 0 =
        .error (.Io .invalidInput, w') ∧
      bwOut w' = HEADER ++ [3] ++ i64le 5 ++ u64le 0 ++ [0] ++ [97] ++ [0] :=
  ⟨(claim_C3_null_rejection ((Builder.new [97] 5).set_description [0]) 0).1
      (Or.inr (Or.inl (by decide))),
    (claim_C3_null_rejection ((Builder.new [97] 5).set_description [0]) 0).2.2.1
      (by decide) (by decide)⟩

end Gma
